import Mathlib

/-!
Verification of the detection-metric engine `AccuracyCalculator`
(`src/accuracy_checker/accuracy_checker.py`).

The Python class is shallowly embedded: the record store holds the parsed
ground-truth and detection rows together with the engine's IoU threshold;
the class/frame dictionaries of the source become index functions over the
row lists (per-class lists are the rows filtered in insertion order, dict
key iteration order is first-occurrence order); the single piece of mutable
state, `matched_dets`, becomes an explicit state value threaded through the
curve-builder fold.  A `KeyError` of the source is modelled by `Option`
(`none` = the call raises).  Python numbers are modelled by `ℚ` (confidences,
coordinates, metric values), `ℕ` (TP/FP counters) and `ℤ` (FN counters,
which the source computes by subtraction).
-/

/-- An axis-aligned box `[x1, y1, x2, y2]`, pixel-inclusive endpoints. -/
structure Box where
  x1 : ℚ
  y1 : ℚ
  x2 : ℚ
  y2 : ℚ
deriving DecidableEq

/-- One parsed ground-truth row `(frame_id, class_name, x1, y1, x2, y2)`. -/
structure GtRow where
  frame : ℕ
  cls : String
  box : Box
deriving DecidableEq

/-- One parsed detection row `(frame_id, class_name, x1, y1, x2, y2, confidence)`. -/
structure DetRow where
  frame : ℕ
  cls : String
  box : Box
  conf : ℚ
deriving DecidableEq

/-- The engine: the loaded record store plus the construction-time
`iou_threshold`.  The class/frame dictionaries (`gts_raw`, `dets_raw`,
`gts_by_frames`, `dets_by_frames`) are derived from the row lists by the
index functions below, exactly as `__split_data_by_classes` and
`__split_data_by_classes_and_frames` build them from the parsed rows. -/
structure AccuracyCalculator where
  gtRows : List GtRow
  detRows : List DetRow
  iou_threshold : ℚ
deriving DecidableEq

/-- Key list of a Python dict built by repeated insertion: first-occurrence
order, each key once. -/
def insKeys {α : Type} [DecidableEq α] (ks : List α) : List α :=
  ks.foldl (fun acc k => if k ∈ acc then acc else acc ++ [k]) []

/-- Index `self.gts_raw[c]`: the ground-truth rows of class `c` in load order
(`__split_data_by_classes` appends rows in input order). -/
def gts_raw (s : AccuracyCalculator) (c : String) : List GtRow :=
  s.gtRows.filter (fun r => decide (r.cls = c))

/-- Index `self.dets_raw[c]`: the detection rows of class `c` in load order. -/
def dets_raw (s : AccuracyCalculator) (c : String) : List DetRow :=
  s.detRows.filter (fun r => decide (r.cls = c))

/-- Keys `self.gts_by_frames.keys()` in dict order. -/
def gtClasses (s : AccuracyCalculator) : List String :=
  insKeys (s.gtRows.map (fun r => r.cls))

/-- Keys `self.dets_by_frames.keys()` in dict order. -/
def detClasses (s : AccuracyCalculator) : List String :=
  insKeys (s.detRows.map (fun r => r.cls))

/-- The frame keys of `self.gts_by_frames[c]` in dict order. -/
def gt_frames (s : AccuracyCalculator) (c : String) : List ℕ :=
  insKeys ((gts_raw s c).map (fun r => r.frame))

/-- The frame keys of `self.dets_by_frames[c]` in dict order. -/
def det_frames (s : AccuracyCalculator) (c : String) : List ℕ :=
  insKeys ((dets_raw s c).map (fun r => r.frame))

/-- Index `self.gts_by_frames[c][f]`: the ground-truth boxes of class `c` in frame
`f`, in load order (empty list when `f` is not a key). -/
def gts_in_frame (s : AccuracyCalculator) (c : String) (f : ℕ) : List Box :=
  ((gts_raw s c).filter (fun r => decide (r.frame = f))).map (fun r => r.box)

/-- Index `self.dets_by_frames[c][f]`: the detection rows of class `c` in frame `f`. -/
def dets_in_frame (s : AccuracyCalculator) (c : String) (f : ℕ) : List DetRow :=
  ((dets_raw s c).filter (fun r => decide (r.frame = f)))

/-- The pixel-inclusive box area of `__calc_iou`: `(x2-x1+1)*(y2-y1+1)`. -/
def box_area (b : Box) : ℚ := (b.x2 - b.x1 + 1) * (b.y2 - b.y1 + 1)

/-- The clamped intersection area of `__calc_iou`:
`max(0, xi2-xi1+1) * max(0, yi2-yi1+1)` on the intersection rectangle. -/
def inter_area (bbox1 bbox2 : Box) : ℚ :=
  max 0 (min bbox1.x2 bbox2.x2 - max bbox1.x1 bbox2.x1 + 1) *
  max 0 (min bbox1.y2 bbox2.y2 - max bbox1.y1 bbox2.y1 + 1)

/-- The union area of `__calc_iou`: `bbox1_area + bbox2_area - inter_area`. -/
def union_area (bbox1 bbox2 : Box) : ℚ :=
  box_area bbox1 + box_area bbox2 - inter_area bbox1 bbox2

/-- Method `__calc_iou`: pixel-inclusive intersection over union of two boxes, with
the zero-denominator guard of the source (`inter/union if union > 0 else 0`). -/
def calc_iou (bbox1 bbox2 : Box) : ℚ :=
  if 0 < union_area bbox1 bbox2 then inter_area bbox1 bbox2 / union_area bbox1 bbox2
  else 0

/-- The best-IoU search of both matchers: fold over the enumerated
ground-truth boxes starting from `best_iou = 0`, `best_gt_idx = -1`,
updating on a strict improvement (`iou > best_iou`). Returns
`(best_iou, best_gt_idx)`. -/
def best_iou_idx (groundtruths : List Box) (det : Box) : ℚ × ℤ :=
  let st := groundtruths.foldl
    (fun (st : ℚ × ℤ × ℤ) gt =>
      if st.1 < calc_iou det gt then (calc_iou det gt, st.2.2, st.2.2 + 1)
      else (st.1, st.2.1, st.2.2 + 1))
    (0, -1, 0)
  (st.1, st.2.1)

/-- One detection of `__match_grouped_dets_to_gts`: state is
`(matched, tp, fp)`; a true positive needs `best_iou >= threshold` and an
unmatched best index, anything else (duplicates included) is a false
positive. -/
def match_grouped_step (τ : ℚ) (groundtruths : List Box)
    (st : Finset ℤ × ℕ × ℕ) (det : Box) : Finset ℤ × ℕ × ℕ :=
  let b := best_iou_idx groundtruths det
  if τ ≤ b.1 ∧ b.2 ∉ st.1 then (insert b.2 st.1, st.2.1 + 1, st.2.2)
  else (st.1, st.2.1, st.2.2 + 1)

/-- Method `__match_grouped_dets_to_gts`: one Matcher pass over a frame; returns
`(tp, fp, fn)` with `fn = len(groundtruths) - len(matched)` computed, as in
the source, by integer subtraction. -/
def match_grouped (τ : ℚ) (detections groundtruths : List Box) : ℕ × ℕ × ℤ :=
  let st := detections.foldl (match_grouped_step τ groundtruths) (∅, 0, 0)
  (st.2.1, st.2.2, (groundtruths.length : ℤ) - (st.1.card : ℤ))

/-- Method `__sort_raw_dets_by_conf` and the per-frame sorting of
`__sort_grouped_dets_by_conf`: stable sort by confidence, descending. -/
def sort_dets (dets : List DetRow) : List DetRow :=
  dets.mergeSort (fun a b => decide (b.conf ≤ a.conf))

/-- The per-class TP sum of `calc_total_tp`: iterate the detection frames of
the class, fetch that frame's ground truth (`[]` when absent) and add the
Matcher's TP. -/
def class_tp (s : AccuracyCalculator) (c : String) : ℕ :=
  ((det_frames s c).map (fun f =>
    (match_grouped s.iou_threshold
      ((sort_dets (dets_in_frame s c f)).map (fun d => d.box))
      (gts_in_frame s c f)).1)).sum

/-- The per-class FP sum of `calc_total_fp` (first loop). -/
def class_fp (s : AccuracyCalculator) (c : String) : ℕ :=
  ((det_frames s c).map (fun f =>
    (match_grouped s.iou_threshold
      ((sort_dets (dets_in_frame s c f)).map (fun d => d.box))
      (gts_in_frame s c f)).2.1)).sum

/-- The per-class FN sum of `calc_total_fn`: iterate the ground-truth frames
of the class, fetch that frame's detections (`[]` when absent) and add the
Matcher's FN remainder. -/
def class_fn (s : AccuracyCalculator) (c : String) : ℤ :=
  ((gt_frames s c).map (fun f =>
    (match_grouped s.iou_threshold
      ((sort_dets (dets_in_frame s c f)).map (fun d => d.box))
      (gts_in_frame s c f)).2.2)).sum

/-- Method `calc_total_tp`: classes with no detections contribute 0. -/
def calc_total_tp (s : AccuracyCalculator) : ℕ :=
  ((gtClasses s).map (fun c => if dets_raw s c = [] then 0 else class_tp s c)).sum

/-- Method `calc_total_fn`: a ground-truth class with no detections contributes all
of `len(gts_raw[c])`, otherwise the per-frame FN remainders. -/
def calc_total_fn (s : AccuracyCalculator) : ℤ :=
  ((gtClasses s).map (fun c =>
    if dets_raw s c = [] then ((gts_raw s c).length : ℤ) else class_fn s c)).sum

/-- The second loop of `calc_total_fp`: every detection of a class absent
from the ground truth counts as a false positive, frame by frame. -/
def spurious_fp (s : AccuracyCalculator) (c : String) : ℕ :=
  ((det_frames s c).map (fun f => (dets_in_frame s c f).length)).sum

/-- Method `calc_total_fp`: matched false positives of the ground-truth classes plus
the detections of entirely spurious classes. -/
def calc_total_fp (s : AccuracyCalculator) : ℕ :=
  ((gtClasses s).map (fun c => if dets_raw s c = [] then 0 else class_fp s c)).sum
  + ((detClasses s).map (fun c => if c ∈ gtClasses s then 0 else spurious_fp s c)).sum

/-- Method `calc_tpr`: `tp / (tp + fn) if (tp + fn) else 0`. -/
def calc_tpr (s : AccuracyCalculator) : ℚ :=
  let tp := calc_total_tp s
  let fn := calc_total_fn s
  if (tp : ℤ) + fn ≠ 0 then (tp : ℚ) / ((tp : ℚ) + (fn : ℚ)) else 0

/-- Method `calc_fdr`: `fp / (tp + fp) if (tp + fp) else 0`. -/
def calc_fdr (s : AccuracyCalculator) : ℚ :=
  let tp := calc_total_tp s
  let fp := calc_total_fp s
  if tp + fp ≠ 0 then (fp : ℚ) / ((tp : ℚ) + (fp : ℚ)) else 0

/-- The mutable field `self.matched_dets`: matched ground-truth indices per
frame (a frame that was never touched maps to the empty set, matching the
lazy `matched_dets[frame_id] = set()` initialisation). -/
def MState : Type := ℕ → Finset ℤ

/-- Method `__match_raw_det_to_gts`: single-detection match for the curve builder.
`self.gts_by_frames[class_name][frame_id]` raises `KeyError` when the
detection's frame has no ground truth of the class, modelled by `none`. -/
def match_raw_step (s : AccuracyCalculator) (c : String) (m : MState)
    (det : DetRow) : Option (ℕ × ℕ × MState) :=
  let groundtruths := gts_in_frame s c det.frame
  if groundtruths = [] then none
  else
    let b := best_iou_idx groundtruths det.box
    if s.iou_threshold ≤ b.1 ∧ b.2 ∉ m det.frame then
      some (1, 0, Function.update m det.frame (insert b.2 (m det.frame)))
    else some (0, 1, m)

/-- The four-way precision/recall policy of `calc_precision_recall` after one
detection, given the class ground-truth count `G` and running totals:
`fn_total` is `G - tp_total` (the source decrements it by each TP delta). -/
def pr_point (G tp fp : ℕ) : ℚ × ℚ :=
  let fn : ℤ := (G : ℤ) - (tp : ℤ)
  if 0 < G then
    if 0 < tp + fp then
      (if tp + fp ≠ 0 then (tp : ℚ) / ((tp : ℚ) + (fp : ℚ)) else 0,
       if (tp : ℤ) + fn ≠ 0 then (tp : ℚ) / ((tp : ℚ) + (fn : ℚ)) else 0)
    else (1, 0)
  else
    if 0 < tp + fp then (0, 1) else (1, 1)

/-- The running state of the `calc_precision_recall` loop. -/
structure PrSt where
  m : MState
  tp : ℕ
  fp : ℕ
  ps : List ℚ
  rs : List ℚ

/-- The detection loop of `calc_precision_recall`: one single-detection match
per sorted detection, appending one precision/recall pair each. The `Bool`
is `false` when the loop raised (`KeyError`), leaving the state as it was at
the raise. -/
def pr_fold (s : AccuracyCalculator) (c : String) :
    List DetRow → PrSt → PrSt × Bool
  | [], st => (st, true)
  | det :: dets, st =>
    match match_raw_step s c st.m det with
    | none => (st, false)
    | some (tp1, fp1, m') =>
      let tp := st.tp + tp1
      let fp := st.fp + fp1
      let pr := pr_point (gts_raw s c).length tp fp
      pr_fold s c dets ⟨m', tp, fp, st.ps ++ [pr.1], st.rs ++ [pr.2]⟩

/-- Method `calc_precision_recall` with the `self.matched_dets` field explicit: the
guard returns `([], [])` before touching the field; otherwise the field is
reset to the empty dict and the loop runs.  Result `none` models a raised
`KeyError`. -/
def calc_precision_recall_st (s : AccuracyCalculator) (c : String) (m : MState) :
    Option (List ℚ × List ℚ) × MState :=
  if dets_raw s c = [] ∨ gts_raw s c = [] then (some ([], []), m)
  else
    let r := pr_fold s c (sort_dets (dets_raw s c)) ⟨fun _ => ∅, 0, 0, [], []⟩
    (if r.2 then some (r.1.ps, r.1.rs) else none, r.1.m)

/-- Method `calc_precision_recall` as a value: the returned pair of sequences. -/
def calc_precision_recall (s : AccuracyCalculator) (c : String) :
    Option (List ℚ × List ℚ) :=
  (calc_precision_recall_st s c (fun _ => ∅)).1

/-- One step of the backward envelope scan of `calc_ap`: state is
`(ap, cur_max_prec, rec_end)`; on `precision > cur_max_prec` the rectangle
`(rec_end - recall) * cur_max_prec` is added and both trackers move. -/
def ap_step (st : ℚ × ℚ × ℚ) (point : ℚ × ℚ) : ℚ × ℚ × ℚ :=
  if st.2.1 < point.1 then (st.1 + (st.2.2 - point.2) * st.2.1, point.1, point.2)
  else st

/-- The envelope integration of `calc_ap` on the zipped
`(precision, recall)` curve: initialise from the last point, walk the curve
backward, and close with the final `(rec_end - 0) * cur_max_prec` segment. -/
def ap_envelope (curve : List (ℚ × ℚ)) : ℚ :=
  match curve.reverse with
  | [] => 0
  | p0 :: rest =>
    let st := (p0 :: rest).foldl ap_step (0, p0.1, p0.2)
    st.1 + st.2.2 * st.2.1

/-- Method `calc_ap`: 0 on an empty curve, else the envelope area. `none` models a
`KeyError` escaping from `calc_precision_recall`. -/
def calc_ap (s : AccuracyCalculator) (c : String) : Option ℚ :=
  (calc_precision_recall s c).map (fun pr =>
    if pr.1.length = 0 then 0 else ap_envelope (pr.1.zip pr.2))

/-- Method `calc_map`: sum `calc_ap` over the ground-truth classes, divide by the
class count (`0` for the empty dict). -/
def calc_map (s : AccuracyCalculator) : Option ℚ := do
  let cs := gtClasses s
  let total ← cs.foldlM (fun (acc : ℚ) c => (calc_ap s c).map (fun a => acc + a)) 0
  pure (if cs.isEmpty then 0 else total / (cs.length : ℚ))

/-- Spec-side definition, for the refinement statement of the mAP claim: the
arithmetic mean of a list of values. -/
def specArithMean (xs : List ℚ) : ℚ := xs.sum / (xs.length : ℚ)

/-- Removing every detection row of one class from the store; used to state
what a detections-only class contributes to the totals. -/
def removeDetClass (s : AccuracyCalculator) (c : String) : AccuracyCalculator :=
  { s with detRows := s.detRows.filter (fun r => !decide (r.cls = c)) }

/-- The query operations of the engine (the two load operations are the only
writers of the record store, so a query sequence keeps the store fixed). -/
inductive Query where
  | totalTp
  | totalFn
  | totalFp
  | tpr
  | fdr
  | precRec (c : String)
  | ap (c : String)
  | mapQ

/-- The effect of one query on the one mutable field `self.matched_dets`:
only `calc_precision_recall` (directly or through `calc_ap` / `calc_map`)
touches it; the counting queries leave it alone. -/
def query_state (s : AccuracyCalculator) (m : MState) : Query → MState
  | .precRec c => (calc_precision_recall_st s c m).2
  | .ap c => (calc_precision_recall_st s c m).2
  | .mapQ => (gtClasses s).foldl (fun m' c => (calc_precision_recall_st s c m').2) m
  | _ => m

/-- The `matched_dets` state after a sequence of query operations. -/
def run_queries (s : AccuracyCalculator) (qs : List Query) (m : MState) : MState :=
  qs.foldl (query_state s) m

/-! ### Concrete record stores used as evaluation inputs -/

/-- A unit ground-truth box. -/
def boxA : Box := ⟨0, 0, 10, 10⟩

/-- A second ground-truth box far from `boxA`. -/
def boxB : Box := ⟨100, 100, 110, 110⟩

/-- A box disjoint from `boxA`. -/
def boxOff : Box := ⟨20, 20, 30, 30⟩

/-- A box overlapping `boxA` with IoU `100/121 > 1/2`. -/
def boxNear : Box := ⟨0, 0, 9, 9⟩

/-- A box whose pixel-inclusive area is `0` (`x2 - x1 + 1 = 0`). -/
def boxDegenerate : Box := ⟨0, 0, -1, 0⟩

/-- One class, one frame, one exactly-matching detection. -/
def storeMatch : AccuracyCalculator := ⟨[⟨1, "c", boxA⟩], [⟨1, "c", boxA, 9/10⟩], 1/2⟩

/-- One class whose single detection sits in frame 2, while the class's only
ground truth is in frame 1 (the `KeyError` input of `__match_raw_det_to_gts`). -/
def storeMiss : AccuracyCalculator := ⟨[⟨1, "c", boxA⟩], [⟨2, "c", boxA, 9/10⟩], 1/2⟩

/-- One class, one frame, one detection disjoint from the ground truth. -/
def storeDisjoint : AccuracyCalculator := ⟨[⟨1, "c", boxA⟩], [⟨1, "c", boxOff, 9/10⟩], 1/2⟩

/-- Two ground-truth boxes and a single perfectly matching detection: every
detection is a true positive, yet recall never reaches 1. -/
def storePartial : AccuracyCalculator :=
  ⟨[⟨1, "c", boxA⟩, ⟨1, "c", boxB⟩], [⟨1, "c", boxA, 9/10⟩], 1/2⟩

/-- Two ground-truth classes: `"c"` perfectly detected, `"d"` missed. -/
def storeTwoClasses : AccuracyCalculator :=
  ⟨[⟨1, "c", boxA⟩, ⟨1, "d", boxB⟩], [⟨1, "c", boxA, 9/10⟩, ⟨1, "d", boxOff, 8/10⟩], 1/2⟩

/-- A matched class `"c"` plus a detections-only class `"x"`. -/
def storeSpurious : AccuracyCalculator :=
  ⟨[⟨1, "c", boxA⟩], [⟨1, "c", boxA, 9/10⟩, ⟨1, "x", boxOff, 8/10⟩], 1/2⟩

/-- The empty record store. -/
def storeEmpty : AccuracyCalculator := ⟨[], [], 1/2⟩

/-! ### General lemmas about dict-key iteration and grouping -/

lemma insKeys_go_mem {α : Type} [DecidableEq α] (ks : List α) (acc : List α) (a : α) :
    a ∈ ks.foldl (fun acc k => if k ∈ acc then acc else acc ++ [k]) acc ↔
      a ∈ acc ∨ a ∈ ks := by
  induction ks generalizing acc with
  | nil => simp
  | cons k ks ih =>
    simp only [List.foldl_cons, ih, List.mem_cons]
    by_cases hk : k ∈ acc
    · simp only [if_pos hk]
      constructor
      · rintro (h | h)
        · exact Or.inl h
        · exact Or.inr (Or.inr h)
      · rintro (h | rfl | h)
        · exact Or.inl h
        · exact Or.inl hk
        · exact Or.inr h
    · simp only [if_neg hk, List.mem_append, List.mem_singleton]
      tauto

lemma mem_insKeys {α : Type} [DecidableEq α] (ks : List α) (a : α) :
    a ∈ insKeys ks ↔ a ∈ ks := by
  simpa [insKeys] using insKeys_go_mem ks [] a

lemma insKeys_go_nodup {α : Type} [DecidableEq α] (ks : List α) (acc : List α)
    (h : acc.Nodup) :
    (ks.foldl (fun acc k => if k ∈ acc then acc else acc ++ [k]) acc).Nodup := by
  induction ks generalizing acc with
  | nil => exact h
  | cons k ks ih =>
    simp only [List.foldl_cons]
    by_cases hk : k ∈ acc
    · rw [if_pos hk]; exact ih acc h
    · rw [if_neg hk]
      refine ih _ ?_
      simp [List.nodup_append, h, hk]

lemma insKeys_nodup {α : Type} [DecidableEq α] (ks : List α) : (insKeys ks).Nodup :=
  insKeys_go_nodup ks [] List.nodup_nil

lemma sum_map_add_nat {κ : Type} (l : List κ) (f g : κ → ℕ) :
    (l.map (fun k => f k + g k)).sum = (l.map f).sum + (l.map g).sum := by
  induction l with
  | nil => rfl
  | cons k l ih => simp [ih]; omega

lemma sum_map_ite_one {κ : Type} [DecidableEq κ] (ks : List κ) (a : κ)
    (h : ks.Nodup) (ha : a ∈ ks) :
    (ks.map (fun k => if a = k then (1 : ℕ) else 0)).sum = 1 := by
  induction ks with
  | nil => cases ha
  | cons k ks ih =>
    rcases List.nodup_cons.mp h with ⟨hk, hnd⟩
    rcases List.mem_cons.mp ha with rfl | hmem
    · have hz : ((ks.map (fun k => if a = k then (1 : ℕ) else 0)).sum = 0) := by
        refine List.sum_eq_zero ?_
        intro x hx
        rcases List.mem_map.mp hx with ⟨k', hk', rfl⟩
        have : a ≠ k' := fun he => hk (he ▸ hk')
        simp [this]
      simp [hz]
    · have hak : a ≠ k := fun he => hk (he ▸ hmem)
      simp [hak, ih hnd hmem]

lemma length_eq_sum_filter {α κ : Type} [DecidableEq κ] (l : List α) (key : α → κ)
    (ks : List κ) (hnd : ks.Nodup) (hcov : ∀ x ∈ l, key x ∈ ks) :
    (ks.map (fun k => (l.filter (fun x => decide (key x = k))).length)).sum = l.length := by
  induction l with
  | nil => simp
  | cons x l ih =>
    have hx : key x ∈ ks := hcov x (List.mem_cons_self x l)
    have hpt : ∀ k ∈ ks,
        ((x :: l).filter (fun y => decide (key y = k))).length =
          (if key x = k then 1 else 0) + (l.filter (fun y => decide (key y = k))).length := by
      intro k _
      by_cases hk : key x = k <;> simp [List.filter_cons, hk] <;> omega
    rw [List.map_congr_left hpt, sum_map_add_nat, sum_map_ite_one ks (key x) hnd hx,
      ih (fun y hy => hcov y (List.mem_cons_of_mem x hy))]
    simp [List.length_cons]
    omega

lemma sum_counts {α κ : Type} [DecidableEq κ] (l : List α) (key : α → κ) :
    ((insKeys (l.map key)).map
      (fun k => (l.filter (fun x => decide (key x = k))).length)).sum = l.length :=
  length_eq_sum_filter l key _ (insKeys_nodup _)
    (fun x hx => (mem_insKeys _ _).2 (List.mem_map_of_mem key hx))

lemma sum_filter_ne {κ : Type} [DecidableEq κ] (L : List κ) (c : κ) (t : κ → ℕ)
    (h : L.Nodup) (hc : c ∈ L) :
    (L.map t).sum = ((L.filter (fun k => !decide (k = c))).map t).sum + t c := by
  induction L with
  | nil => cases hc
  | cons k L ih =>
    rcases List.nodup_cons.mp h with ⟨hk, hnd⟩
    by_cases hkc : k = c
    · have hcl : c ∉ L := fun hmem => hk (hkc ▸ hmem)
      have hfl : L.filter (fun x => !decide (x = c)) = L := by
        refine List.filter_eq_self.mpr ?_
        intro a ha
        simp only [Bool.not_eq_eq_eq_not, Bool.not_true, decide_eq_false_iff_not]
        exact fun he => hcl (he ▸ ha)
      have hq : (!decide (k = c)) = false := by simp [hkc]
      simp only [List.filter_cons, hq, Bool.false_eq_true, if_false, List.map_cons,
        List.sum_cons, hfl]
      rw [hkc]
      omega
    · have hcl : c ∈ L := by
        rcases List.mem_cons.mp hc with h1 | h1
        · exact absurd h1.symm hkc
        · exact h1
      have hq : (!decide (k = c)) = true := by simp [hkc]
      simp only [List.filter_cons, hq, if_true, List.map_cons, List.sum_cons, ih hnd hcl]
      omega

lemma insKeys_go_filter {κ : Type} [DecidableEq κ] (ks : List κ) (c : κ) (acc : List κ) :
    (ks.filter (fun k => !decide (k = c))).foldl
        (fun acc k => if k ∈ acc then acc else acc ++ [k])
        (acc.filter (fun k => !decide (k = c))) =
      (ks.foldl (fun acc k => if k ∈ acc then acc else acc ++ [k]) acc).filter
        (fun k => !decide (k = c)) := by
  induction ks generalizing acc with
  | nil => rfl
  | cons k ks ih =>
    by_cases hkc : k = c
    · have hq : (!decide (k = c)) = false := by simp [hkc]
      simp only [List.filter_cons, hq, Bool.false_eq_true, if_false, List.foldl_cons]
      rw [← ih (if k ∈ acc then acc else acc ++ [k])]
      congr 1
      by_cases hk : k ∈ acc
      · rw [if_pos hk]
      · rw [if_neg hk, List.filter_append]
        simp [hq]
    · have hq : (!decide (k = c)) = true := by simp [hkc]
      simp only [List.filter_cons, hq, if_true, List.foldl_cons]
      rw [← ih (if k ∈ acc then acc else acc ++ [k])]
      congr 1
      have hmem : (k ∈ acc.filter (fun x => !decide (x = c))) ↔ k ∈ acc := by
        simp [List.mem_filter, hkc]
      by_cases hk : k ∈ acc
      · rw [if_pos (hmem.mpr hk), if_pos hk]
      · rw [if_neg (fun hh => hk (hmem.mp hh)), if_neg hk, List.filter_append]
        simp [hq]

lemma insKeys_filter {κ : Type} [DecidableEq κ] (ks : List κ) (c : κ) :
    insKeys (ks.filter (fun k => !decide (k = c))) =
      (insKeys ks).filter (fun k => !decide (k = c)) := by
  simpa [insKeys] using insKeys_go_filter ks c []

/-! ### The best-IoU search and the grouped Matcher -/

lemma best_fold_spec (det : Box) (gts : List Box) (init : ℚ × ℤ × ℤ) :
    (gts.foldl
      (fun (st : ℚ × ℤ × ℤ) gt =>
        if st.1 < calc_iou det gt then (calc_iou det gt, st.2.2, st.2.2 + 1)
        else (st.1, st.2.1, st.2.2 + 1)) init).2.2 = init.2.2 + (gts.length : ℤ) ∧
    (((gts.foldl
      (fun (st : ℚ × ℤ × ℤ) gt =>
        if st.1 < calc_iou det gt then (calc_iou det gt, st.2.2, st.2.2 + 1)
        else (st.1, st.2.1, st.2.2 + 1)) init).1 = init.1 ∧
      (gts.foldl
      (fun (st : ℚ × ℤ × ℤ) gt =>
        if st.1 < calc_iou det gt then (calc_iou det gt, st.2.2, st.2.2 + 1)
        else (st.1, st.2.1, st.2.2 + 1)) init).2.1 = init.2.1) ∨
     (init.1 < (gts.foldl
      (fun (st : ℚ × ℤ × ℤ) gt =>
        if st.1 < calc_iou det gt then (calc_iou det gt, st.2.2, st.2.2 + 1)
        else (st.1, st.2.1, st.2.2 + 1)) init).1 ∧
      init.2.2 ≤ (gts.foldl
      (fun (st : ℚ × ℤ × ℤ) gt =>
        if st.1 < calc_iou det gt then (calc_iou det gt, st.2.2, st.2.2 + 1)
        else (st.1, st.2.1, st.2.2 + 1)) init).2.1 ∧
      (gts.foldl
      (fun (st : ℚ × ℤ × ℤ) gt =>
        if st.1 < calc_iou det gt then (calc_iou det gt, st.2.2, st.2.2 + 1)
        else (st.1, st.2.1, st.2.2 + 1)) init).2.1 < init.2.2 + (gts.length : ℤ))) := by
  induction gts generalizing init with
  | nil => simp
  | cons gt gts ih =>
    simp only [List.foldl_cons, List.length_cons]
    by_cases hlt : init.1 < calc_iou det gt
    · rw [if_pos hlt]
      obtain ⟨hc, hd⟩ := ih (calc_iou det gt, init.2.2, init.2.2 + 1)
      simp only at hc hd
      refine ⟨by push_cast at hc ⊢; omega, ?_⟩
      rcases hd with ⟨h1, h2⟩ | ⟨h1, h2, h3⟩
      · exact Or.inr ⟨by rw [h1]; exact hlt, by omega, by push_cast at h2 ⊢; omega⟩
      · exact Or.inr ⟨lt_trans hlt h1, by omega, by push_cast at h3 ⊢; omega⟩
    · rw [if_neg hlt]
      obtain ⟨hc, hd⟩ := ih (init.1, init.2.1, init.2.2 + 1)
      simp only at hc hd
      refine ⟨by push_cast at hc ⊢; omega, ?_⟩
      rcases hd with ⟨h1, h2⟩ | ⟨h1, h2, h3⟩
      · exact Or.inl ⟨h1, h2⟩
      · exact Or.inr ⟨h1, by omega, by push_cast at h3 ⊢; omega⟩

lemma best_iou_idx_valid (gts : List Box) (det : Box)
    (h : 0 < (best_iou_idx gts det).1) :
    0 ≤ (best_iou_idx gts det).2 ∧ (best_iou_idx gts det).2 < (gts.length : ℤ) := by
  obtain ⟨hc, hd⟩ := best_fold_spec det gts (0, -1, 0)
  simp only at hc hd
  simp only [best_iou_idx] at h ⊢
  rcases hd with ⟨h1, _⟩ | ⟨_, h2, h3⟩
  · exfalso
    rw [h1] at h
    exact lt_irrefl 0 h
  · constructor
    · exact h2
    · omega

lemma match_fold_spec (τ : ℚ) (gts : List Box) (dets : List Box)
    (st : Finset ℤ × ℕ × ℕ) :
    (dets.foldl (match_grouped_step τ gts) st).2.1 +
        (dets.foldl (match_grouped_step τ gts) st).2.2 =
      st.2.1 + st.2.2 + dets.length ∧
    (dets.foldl (match_grouped_step τ gts) st).2.1 + st.1.card =
      st.2.1 + (dets.foldl (match_grouped_step τ gts) st).1.card ∧
    (0 < τ → (∀ x ∈ st.1, 0 ≤ x ∧ x < (gts.length : ℤ)) →
      ∀ x ∈ (dets.foldl (match_grouped_step τ gts) st).1,
        0 ≤ x ∧ x < (gts.length : ℤ)) := by
  induction dets generalizing st with
  | nil => exact ⟨by simp, by simp, fun _ hv => hv⟩
  | cons det dets ih =>
    simp only [List.foldl_cons, List.length_cons]
    by_cases hcond : τ ≤ (best_iou_idx gts det).1 ∧ (best_iou_idx gts det).2 ∉ st.1
    · have hstep : match_grouped_step τ gts st det =
          (insert (best_iou_idx gts det).2 st.1, st.2.1 + 1, st.2.2) := by
        unfold match_grouped_step
        rw [if_pos hcond]
      rw [hstep]
      obtain ⟨ha, hb, hv⟩ := ih (insert (best_iou_idx gts det).2 st.1, st.2.1 + 1, st.2.2)
      have hcard : (insert (best_iou_idx gts det).2 st.1).card = st.1.card + 1 :=
        Finset.card_insert_of_not_mem hcond.2
      refine ⟨by simp at ha ⊢; omega, by simp [hcard] at hb ⊢; omega, ?_⟩
      intro hτ hval
      refine hv hτ ?_
      intro x hx
      rcases Finset.mem_insert.mp hx with rfl | hx'
      · exact best_iou_idx_valid gts det (lt_of_lt_of_le hτ hcond.1)
      · exact hval x hx'
    · have hstep : match_grouped_step τ gts st det = (st.1, st.2.1, st.2.2 + 1) := by
        unfold match_grouped_step
        rw [if_neg hcond]
      rw [hstep]
      obtain ⟨ha, hb, hv⟩ := ih (st.1, st.2.1, st.2.2 + 1)
      exact ⟨by simp at ha ⊢; omega, by simp at hb ⊢; omega, fun hτ hval => hv hτ hval⟩

lemma match_grouped_tp_card (τ : ℚ) (dets gts : List Box) :
    (match_grouped τ dets gts).1 =
      (dets.foldl (match_grouped_step τ gts) (∅, 0, 0)).1.card := by
  obtain ⟨_, hb, _⟩ := match_fold_spec τ gts dets (∅, 0, 0)
  simpa [match_grouped] using hb

lemma match_grouped_counts (τ : ℚ) (dets gts : List Box) :
    ((match_grouped τ dets gts).1 : ℤ) + (match_grouped τ dets gts).2.2 =
      (gts.length : ℤ) ∧
    (match_grouped τ dets gts).1 + (match_grouped τ dets gts).2.1 = dets.length := by
  obtain ⟨ha, hb, _⟩ := match_fold_spec τ gts dets (∅, 0, 0)
  constructor
  · have := match_grouped_tp_card τ dets gts
    simp only [match_grouped] at this ⊢
    omega
  · simpa [match_grouped] using ha

lemma match_grouped_card_le (τ : ℚ) (hτ : 0 < τ) (dets gts : List Box) :
    (dets.foldl (match_grouped_step τ gts) (∅, 0, 0)).1.card ≤ gts.length := by
  obtain ⟨_, _, hv⟩ := match_fold_spec τ gts dets (∅, 0, 0)
  have hsub : (dets.foldl (match_grouped_step τ gts) (∅, 0, 0)).1 ⊆
      Finset.Ico (0 : ℤ) (gts.length : ℤ) := by
    intro x hx
    rw [Finset.mem_Ico]
    exact hv hτ (by simp) x hx
  have hle := Finset.card_le_card hsub
  rwa [Int.card_Ico, show ((gts.length : ℤ) - 0).toNat = gts.length by omega] at hle

lemma match_grouped_fn_nonneg (τ : ℚ) (hτ : 0 < τ) (dets gts : List Box) :
    0 ≤ (match_grouped τ dets gts).2.2 := by
  have := match_grouped_card_le τ hτ dets gts
  simp only [match_grouped]
  omega

/-! ### The curve builder -/

lemma mem_gt_frames_iff (s : AccuracyCalculator) (c : String) (f : ℕ) :
    f ∈ gt_frames s c ↔ gts_in_frame s c f ≠ [] := by
  unfold gt_frames gts_in_frame
  rw [mem_insKeys]
  simp only [List.mem_map, ne_eq, List.map_eq_nil_iff, List.filter_eq_nil_iff,
    decide_eq_true_eq, not_forall]
  constructor
  · rintro ⟨r, hr, rfl⟩
    exact ⟨r, hr, by simp⟩
  · rintro ⟨r, hr, hf⟩
    exact ⟨r, hr, by simpa using hf⟩

lemma sum_frame_lengths (s : AccuracyCalculator) (c : String) :
    ((gt_frames s c).map (fun f => (gts_in_frame s c f).length)).sum =
      (gts_raw s c).length := by
  unfold gt_frames gts_in_frame
  simpa [List.length_map] using sum_counts (gts_raw s c) (fun r => r.frame)

lemma spurious_fp_eq (s : AccuracyCalculator) (c : String) :
    spurious_fp s c = (dets_raw s c).length := by
  unfold spurious_fp det_frames dets_in_frame
  simpa using sum_counts (dets_raw s c) (fun r => r.frame)

lemma sum_map_card_update (L : List ℕ) (hnd : L.Nodup) (f₀ : ℕ) (hf : f₀ ∈ L)
    (m : MState) (t : Finset ℤ) :
    (L.map (fun f => ((Function.update m f₀ t) f).card)).sum + (m f₀).card =
      (L.map (fun f => (m f).card)).sum + t.card := by
  induction L with
  | nil => cases hf
  | cons g L ih =>
    rcases List.nodup_cons.mp hnd with ⟨hg, hnd'⟩
    rcases List.mem_cons.mp hf with rfl | hmem
    · have htail : L.map (fun f => ((Function.update m f₀ t) f).card) =
          L.map (fun f => (m f).card) := by
        refine List.map_congr_left ?_
        intro f hfL
        have hne : f ≠ f₀ := fun he => hg (he ▸ hfL)
        rw [Function.update_noteq hne]
      simp only [List.map_cons, List.sum_cons, htail, Function.update_same]
      omega
    · have hgf : g ≠ f₀ := fun he => hg (he ▸ hmem)
      simp only [List.map_cons, List.sum_cons, Function.update_noteq hgf]
      have := ih hnd' hmem
      omega

lemma match_raw_step_some (s : AccuracyCalculator) (c : String) (m : MState)
    (det : DetRow) (tp1 fp1 : ℕ) (m' : MState)
    (h : match_raw_step s c m det = some (tp1, fp1, m')) :
    tp1 + fp1 = 1 ∧
    (0 < s.iou_threshold →
      (∀ f, m f ⊆ Finset.Ico 0 ((gts_in_frame s c f).length : ℤ)) →
      ((∀ f, m' f ⊆ Finset.Ico 0 ((gts_in_frame s c f).length : ℤ)) ∧
        ((gt_frames s c).map (fun f => (m' f).card)).sum =
          ((gt_frames s c).map (fun f => (m f).card)).sum + tp1)) := by
  unfold match_raw_step at h
  by_cases hnil : gts_in_frame s c det.frame = []
  · rw [if_pos hnil] at h
    cases h
  · rw [if_neg hnil] at h
    by_cases hcond : s.iou_threshold ≤ (best_iou_idx (gts_in_frame s c det.frame) det.box).1 ∧
        (best_iou_idx (gts_in_frame s c det.frame) det.box).2 ∉ m det.frame
    · rw [if_pos hcond] at h
      simp only [Option.some.injEq, Prod.mk.injEq] at h
      obtain ⟨h1, h2, h3⟩ := h
      subst h1; subst h2; subst h3
      refine ⟨rfl, ?_⟩
      intro hτ hval
      have hbv := best_iou_idx_valid (gts_in_frame s c det.frame) det.box
        (lt_of_lt_of_le hτ hcond.1)
      constructor
      · intro f
        by_cases hf : f = det.frame
        · subst hf
          rw [Function.update_same]
          refine Finset.insert_subset_iff.mpr ⟨?_, hval det.frame⟩
          rw [Finset.mem_Ico]
          exact hbv
        · rw [Function.update_noteq hf]
          exact hval f
      · have hfmem : det.frame ∈ gt_frames s c := (mem_gt_frames_iff s c det.frame).mpr hnil
        have := sum_map_card_update (gt_frames s c) (insKeys_nodup _) det.frame hfmem m
          (insert (best_iou_idx (gts_in_frame s c det.frame) det.box).2 (m det.frame))
        rw [Finset.card_insert_of_not_mem hcond.2] at this
        omega
    · rw [if_neg hcond] at h
      simp only [Option.some.injEq, Prod.mk.injEq] at h
      obtain ⟨h1, h2, h3⟩ := h
      subst h1; subst h2; subst h3
      exact ⟨rfl, fun _ hval => ⟨hval, by omega⟩⟩

lemma pr_point_pos (G tp fp : ℕ) (hG : 0 < G) (hpos : 0 < tp + fp) :
    pr_point G tp fp = ((tp : ℚ) / ((tp : ℚ) + (fp : ℚ)), (tp : ℚ) / (G : ℚ)) := by
  have h1 : tp + fp ≠ 0 := Nat.pos_iff_ne_zero.mp hpos
  have h2 : (tp : ℤ) + ((G : ℤ) - (tp : ℤ)) ≠ 0 := by omega
  simp only [pr_point]
  rw [if_pos hG, if_pos hpos, if_pos h1, if_pos h2]
  congr 1
  congr 1
  push_cast
  ring

lemma pr_fold_len (s : AccuracyCalculator) (c : String) (dets : List DetRow)
    (st : PrSt) (h : st.ps.length = st.rs.length) :
    (pr_fold s c dets st).1.ps.length = (pr_fold s c dets st).1.rs.length := by
  induction dets generalizing st with
  | nil => simpa [pr_fold] using h
  | cons det dets ih =>
    rw [pr_fold]
    cases hstep : match_raw_step s c st.m det with
    | none => simpa using h
    | some v =>
      obtain ⟨tp1, fp1, m'⟩ := v
      exact ih _ (by simp [h])

lemma pr_fold_inv (s : AccuracyCalculator) (c : String)
    (hτ : 0 < s.iou_threshold) (hG : 0 < (gts_raw s c).length)
    (dets : List DetRow) (st : PrSt)
    (hv : ∀ f, st.m f ⊆ Finset.Ico 0 ((gts_in_frame s c f).length : ℤ))
    (htp : st.tp = ((gt_frames s c).map (fun f => (st.m f).card)).sum)
    (hps : ∀ p ∈ st.ps, 0 ≤ p ∧ p ≤ 1)
    (hrs : ∀ r ∈ st.rs, 0 ≤ r ∧ r ≤ 1)
    (hch : st.rs.Chain' (· ≤ ·))
    (hlast : ∀ x ∈ st.rs.getLast?, x ≤ (st.tp : ℚ) / ((gts_raw s c).length : ℚ)) :
    (∀ p ∈ (pr_fold s c dets st).1.ps, 0 ≤ p ∧ p ≤ 1) ∧
    (∀ r ∈ (pr_fold s c dets st).1.rs, 0 ≤ r ∧ r ≤ 1) ∧
    (pr_fold s c dets st).1.rs.Chain' (· ≤ ·) := by
  induction dets generalizing st with
  | nil => exact ⟨by simpa [pr_fold] using hps, by simpa [pr_fold] using hrs,
      by simpa [pr_fold] using hch⟩
  | cons det dets ih =>
    rw [pr_fold]
    cases hstep : match_raw_step s c st.m det with
    | none =>
      exact ⟨by simpa using hps, by simpa using hrs, by simpa using hch⟩
    | some v =>
      obtain ⟨tp1, fp1, m'⟩ := v
      obtain ⟨hone, hrest⟩ := match_raw_step_some s c st.m det tp1 fp1 m' hstep
      obtain ⟨hv', hsum⟩ := hrest hτ hv
      have htp' : st.tp + tp1 = ((gt_frames s c).map (fun f => (m' f).card)).sum := by
        omega
      have htpG : st.tp + tp1 ≤ (gts_raw s c).length := by
        have hle : ((gt_frames s c).map (fun f => (m' f).card)).sum ≤
            ((gt_frames s c).map (fun f => (gts_in_frame s c f).length)).sum := by
          refine List.sum_le_sum ?_
          intro f _
          have hcard := Finset.card_le_card (hv' f)
          rwa [Int.card_Ico,
            show (((gts_in_frame s c f).length : ℤ) - 0).toNat =
              (gts_in_frame s c f).length by omega] at hcard
        rw [htp']
        calc ((gt_frames s c).map (fun f => (m' f).card)).sum
            ≤ ((gt_frames s c).map (fun f => (gts_in_frame s c f).length)).sum := hle
          _ = (gts_raw s c).length := sum_frame_lengths s c
      have hpr : pr_point (gts_raw s c).length (st.tp + tp1) (st.fp + fp1) =
          (((st.tp + tp1 : ℕ) : ℚ) / (((st.tp + tp1 : ℕ) : ℚ) + ((st.fp + fp1 : ℕ) : ℚ)),
           ((st.tp + tp1 : ℕ) : ℚ) / ((gts_raw s c).length : ℚ)) :=
        pr_point_pos _ _ _ hG (by omega)
      have hGq : (0 : ℚ) < ((gts_raw s c).length : ℚ) := by exact_mod_cast hG
      have hdpos : (0 : ℚ) < ((st.tp + tp1 : ℕ) : ℚ) + ((st.fp + fp1 : ℕ) : ℚ) := by
        have h1 : 0 < st.tp + tp1 + (st.fp + fp1) := by omega
        have h2 : (0 : ℚ) < ((st.tp + tp1 + (st.fp + fp1) : ℕ) : ℚ) := by exact_mod_cast h1
        push_cast at h2 ⊢
        linarith
      have hp_new : 0 ≤ (((st.tp + tp1 : ℕ) : ℚ) / (((st.tp + tp1 : ℕ) : ℚ) + ((st.fp + fp1 : ℕ) : ℚ))) ∧
          (((st.tp + tp1 : ℕ) : ℚ) / (((st.tp + tp1 : ℕ) : ℚ) + ((st.fp + fp1 : ℕ) : ℚ))) ≤ 1 := by
        constructor
        · apply div_nonneg (by positivity) (le_of_lt hdpos)
        · rw [div_le_one hdpos]
          have hfp0 : (0 : ℚ) ≤ ((st.fp + fp1 : ℕ) : ℚ) := by positivity
          linarith
      have hr_new : 0 ≤ (((st.tp + tp1 : ℕ) : ℚ) / ((gts_raw s c).length : ℚ)) ∧
          (((st.tp + tp1 : ℕ) : ℚ) / ((gts_raw s c).length : ℚ)) ≤ 1 := by
        constructor
        · positivity
        · rw [div_le_one hGq]
          exact_mod_cast htpG
      refine ih ⟨m', st.tp + tp1, st.fp + fp1, st.ps ++ [_], st.rs ++ [_]⟩
        hv' htp' ?_ ?_ ?_ ?_
      · intro p hp
        simp only [hpr] at hp
        rcases List.mem_append.mp hp with hp | hp
        · exact hps p hp
        · rw [List.mem_singleton.mp hp]
          exact hp_new
      · intro r hr
        simp only [hpr] at hr
        rcases List.mem_append.mp hr with hr | hr
        · exact hrs r hr
        · rw [List.mem_singleton.mp hr]
          exact hr_new
      · simp only [hpr]
        rw [List.chain'_append]
        refine ⟨hch, List.chain'_singleton _, ?_⟩
        intro x hx y hy
        simp only [List.head?_cons, Option.mem_def, Option.some.injEq] at hy
        subst hy
        have hxle := hlast x hx
        calc x ≤ (st.tp : ℚ) / ((gts_raw s c).length : ℚ) := hxle
          _ ≤ ((st.tp + tp1 : ℕ) : ℚ) / ((gts_raw s c).length : ℚ) := by
            apply div_le_div_of_nonneg_right ?_ (le_of_lt hGq)
            exact_mod_cast Nat.le_add_right st.tp tp1
      · simp only [hpr]
        intro x hx
        rw [List.getLast?_concat] at hx
        simp only [Option.mem_def, Option.some.injEq] at hx
        subst hx
        exact le_refl _

lemma calc_precision_recall_props (s : AccuracyCalculator) (c : String)
    (hτ : 0 < s.iou_threshold) (ps rs : List ℚ)
    (h : calc_precision_recall s c = some (ps, rs)) :
    ps.length = rs.length ∧ (∀ p ∈ ps, 0 ≤ p ∧ p ≤ 1) ∧
    (∀ r ∈ rs, 0 ≤ r ∧ r ≤ 1) ∧ rs.Chain' (· ≤ ·) := by
  unfold calc_precision_recall calc_precision_recall_st at h
  by_cases hg : dets_raw s c = [] ∨ gts_raw s c = []
  · rw [if_pos hg] at h
    simp only [Option.some.injEq, Prod.mk.injEq] at h
    obtain ⟨h1, h2⟩ := h
    subst h1; subst h2
    simp
  · rw [if_neg hg] at h
    push_neg at hg
    have hG : 0 < (gts_raw s c).length := List.length_pos.mpr hg.2
    simp only at h
    by_cases hok : (pr_fold s c (sort_dets (dets_raw s c))
        ⟨fun _ => ∅, 0, 0, [], []⟩).2 = true
    · rw [if_pos hok] at h
      simp only [Option.some.injEq, Prod.mk.injEq] at h
      obtain ⟨h1, h2⟩ := h
      subst h1; subst h2
      have hlen := pr_fold_len s c (sort_dets (dets_raw s c))
        ⟨fun _ => ∅, 0, 0, [], []⟩ rfl
      have hinv := pr_fold_inv s c hτ hG (sort_dets (dets_raw s c))
        ⟨fun _ => ∅, 0, 0, [], []⟩
        (fun f => Finset.empty_subset _) (by simp [List.sum_eq_zero])
        (by simp) (by simp) (by simp) (by simp)
      exact ⟨hlen, hinv.1, hinv.2.1, hinv.2.2⟩
    · rw [if_neg hok] at h
      cases h

lemma zip_getLast (ps rs : List ℚ) (hlen : ps.length = rs.length) (p r : ℚ)
    (hp : ps.getLast? = some p) (hr : rs.getLast? = some r) :
    (ps.zip rs).getLast? = some (p, r) := by
  induction ps generalizing rs with
  | nil => cases hp
  | cons a t ih =>
    cases rs with
    | nil => cases hr
    | cons b u =>
      cases t with
      | nil =>
        cases u with
        | nil =>
          simp only [List.getLast?_singleton, Option.some.injEq] at hp hr
          simp [List.zip_cons_cons, hp, hr]
        | cons b2 u2 => simp at hlen
      | cons a2 t2 =>
        cases u with
        | nil => simp at hlen
        | cons b2 u2 =>
          have hlen' : (a2 :: t2).length = (b2 :: u2).length := by
            simpa using hlen
          rw [List.getLast?_cons_cons] at hp
          rw [List.getLast?_cons_cons] at hr
          have := ih (b2 :: u2) hlen' hp hr
          rw [List.zip_cons_cons, List.zip_cons_cons, List.getLast?_cons_cons]
          rw [List.zip_cons_cons] at this
          exact this

lemma ap_fold_const (l : List (ℚ × ℚ)) (a cm re : ℚ)
    (h : ∀ q ∈ l, q.1 ≤ cm) :
    l.foldl ap_step (a, cm, re) = (a, cm, re) := by
  induction l with
  | nil => rfl
  | cons q l ih =>
    rw [List.foldl_cons]
    have hstep : ap_step (a, cm, re) q = (a, cm, re) := by
      unfold ap_step
      rw [if_neg (not_lt.mpr (h q (List.mem_cons_self q l)))]
    rw [hstep]
    exact ih (fun q' hq' => h q' (List.mem_cons_of_mem q hq'))

lemma ap_envelope_all_fst (curve : List (ℚ × ℚ)) (v : ℚ) (hne : curve ≠ [])
    (hall : ∀ q ∈ curve, q.1 = v) :
    ∃ q0, curve.getLast? = some q0 ∧ ap_envelope curve = q0.2 * v := by
  cases hrev : curve.reverse with
  | nil => exact absurd (List.reverse_eq_nil_iff.mp hrev) hne
  | cons p0 rest =>
    have hmemrev : ∀ q ∈ p0 :: rest, q ∈ curve := by
      intro q hq
      rw [← List.mem_reverse, hrev]
      exact hq
    have hp0 : p0.1 = v := hall p0 (hmemrev p0 (List.mem_cons_self p0 rest))
    have hfold := ap_fold_const (p0 :: rest) 0 p0.1 p0.2
      (fun q hq => le_of_eq (by rw [hall q (hmemrev q hq), hp0]))
    refine ⟨p0, ?_, ?_⟩
    · rw [← List.head?_reverse, hrev]
      rfl
    · have henv : ap_envelope curve =
          ((p0 :: rest).foldl ap_step (0, p0.1, p0.2)).1 +
          ((p0 :: rest).foldl ap_step (0, p0.1, p0.2)).2.2 *
          ((p0 :: rest).foldl ap_step (0, p0.1, p0.2)).2.1 := by
        unfold ap_envelope
        rw [hrev]
      rw [henv, hfold]
      simp [hp0]

lemma ap_fold_bound (l : List (ℚ × ℚ)) (a cm re : ℚ)
    (ha : 0 ≤ a) (hcm0 : 0 ≤ cm) (hcm1 : cm ≤ 1) (hre : 0 ≤ re)
    (hall : ∀ q ∈ l, 0 ≤ q.1 ∧ q.1 ≤ 1 ∧ 0 ≤ q.2 ∧ q.2 ≤ re)
    (hpw : l.Pairwise (fun q q2 => q2.2 ≤ q.2)) :
    0 ≤ (l.foldl ap_step (a, cm, re)).1 ∧
    0 ≤ (l.foldl ap_step (a, cm, re)).2.1 ∧
    (l.foldl ap_step (a, cm, re)).2.1 ≤ 1 ∧
    0 ≤ (l.foldl ap_step (a, cm, re)).2.2 ∧
    (l.foldl ap_step (a, cm, re)).1 + (l.foldl ap_step (a, cm, re)).2.2 ≤ a + re := by
  induction l generalizing a cm re with
  | nil => exact ⟨ha, hcm0, hcm1, hre, le_refl _⟩
  | cons q l ih =>
    obtain ⟨hq1, hq2, hq3, hq4⟩ := hall q (List.mem_cons_self q l)
    rcases List.pairwise_cons.mp hpw with ⟨hhead, htail⟩
    by_cases hlt : cm < q.1
    · have hstep : ap_step (a, cm, re) q = (a + (re - q.2) * cm, q.1, q.2) := by
        unfold ap_step
        rw [if_pos hlt]
      rw [List.foldl_cons, hstep]
      have hseg : 0 ≤ (re - q.2) * cm := mul_nonneg (by linarith) hcm0
      have hseg1 : (re - q.2) * cm ≤ re - q.2 :=
        mul_le_of_le_one_right (by linarith) hcm1
      have := ih (a + (re - q.2) * cm) q.1 q.2 (by linarith) hq1 hq2 hq3
        (fun q' hq' => ⟨(hall q' (List.mem_cons_of_mem q hq')).1,
          (hall q' (List.mem_cons_of_mem q hq')).2.1,
          (hall q' (List.mem_cons_of_mem q hq')).2.2.1, hhead q' hq'⟩)
        htail
      exact ⟨this.1, this.2.1, this.2.2.1, this.2.2.2.1, by linarith [this.2.2.2.2]⟩
    · have hstep : ap_step (a, cm, re) q = (a, cm, re) := by
        unfold ap_step
        rw [if_neg hlt]
      rw [List.foldl_cons, hstep]
      exact ih a cm re ha hcm0 hcm1 hre
        (fun q' hq' => ⟨(hall q' (List.mem_cons_of_mem q hq')).1,
          (hall q' (List.mem_cons_of_mem q hq')).2.1,
          (hall q' (List.mem_cons_of_mem q hq')).2.2.1,
          le_trans (hhead q' hq') hq4⟩)
        htail

lemma ap_envelope_bound (curve : List (ℚ × ℚ))
    (hall : ∀ q ∈ curve, 0 ≤ q.1 ∧ q.1 ≤ 1 ∧ 0 ≤ q.2 ∧ q.2 ≤ 1)
    (hmono : curve.Pairwise (fun q q2 => q.2 ≤ q2.2)) :
    0 ≤ ap_envelope curve ∧ ap_envelope curve ≤ 1 := by
  cases hrev : curve.reverse with
  | nil =>
    unfold ap_envelope
    rw [hrev]
    norm_num
  | cons p0 rest =>
    have hmemrev : ∀ q ∈ p0 :: rest, q ∈ curve := by
      intro q hq
      rw [← List.mem_reverse, hrev]
      exact hq
    have hpwrev : (p0 :: rest).Pairwise (fun q q2 => q2.2 ≤ q.2) := by
      rw [← hrev]
      exact List.pairwise_reverse.mpr hmono
    obtain ⟨hp1, hp2, hp3, hp4⟩ := hall p0 (hmemrev p0 (List.mem_cons_self p0 rest))
    rcases List.pairwise_cons.mp hpwrev with ⟨hhead, htail⟩
    have hfold := ap_fold_bound (p0 :: rest) 0 p0.1 p0.2 (le_refl 0) hp1 hp2 hp3
      (by
        intro q hq
        rcases List.mem_cons.mp hq with rfl | hq'
        · exact ⟨hp1, hp2, hp3, le_refl _⟩
        · obtain ⟨h1, h2, h3, _⟩ := hall q (hmemrev q hq)
          exact ⟨h1, h2, h3, hhead q hq'⟩)
      hpwrev
    obtain ⟨hA, hB, hC, hD, hE⟩ := hfold
    have henv : ap_envelope curve =
        ((p0 :: rest).foldl ap_step (0, p0.1, p0.2)).1 +
        ((p0 :: rest).foldl ap_step (0, p0.1, p0.2)).2.2 *
        ((p0 :: rest).foldl ap_step (0, p0.1, p0.2)).2.1 := by
      unfold ap_envelope
      rw [hrev]
    constructor
    · rw [henv]
      have := mul_nonneg hD hB
      linarith
    · rw [henv]
      have hmul : ((p0 :: rest).foldl ap_step (0, p0.1, p0.2)).2.2 *
          ((p0 :: rest).foldl ap_step (0, p0.1, p0.2)).2.1 ≤
          ((p0 :: rest).foldl ap_step (0, p0.1, p0.2)).2.2 :=
        mul_le_of_le_one_right hD hC
      linarith

lemma pr_fold_all_fp (s : AccuracyCalculator) (c : String)
    (hG : 0 < (gts_raw s c).length) (dets : List DetRow) (st : PrSt)
    (htp : st.tp = 0)
    (hps : ∀ p ∈ st.ps, p = 0) (hrs : ∀ r ∈ st.rs, r = 0)
    (hdets : ∀ d ∈ dets, gts_in_frame s c d.frame ≠ [] ∧
      (best_iou_idx (gts_in_frame s c d.frame) d.box).1 < s.iou_threshold) :
    (pr_fold s c dets st).2 = true ∧
    (∀ p ∈ (pr_fold s c dets st).1.ps, p = 0) ∧
    (∀ r ∈ (pr_fold s c dets st).1.rs, r = 0) := by
  induction dets generalizing st with
  | nil => rw [pr_fold]; exact ⟨rfl, hps, hrs⟩
  | cons d dets ih =>
    obtain ⟨hnn, hlt⟩ := hdets d (List.mem_cons_self d dets)
    have hstep : match_raw_step s c st.m d = some (0, 1, st.m) := by
      unfold match_raw_step
      rw [if_neg hnn, if_neg (fun hc => absurd hc.1 (not_le.mpr hlt))]
    rw [pr_fold, hstep]
    have hpt : pr_point (gts_raw s c).length (st.tp + 0) (st.fp + 1) = (0, 0) := by
      rw [pr_point_pos _ _ _ hG (by omega), htp]
      norm_num
    refine ih ⟨st.m, st.tp + 0, st.fp + 1, st.ps ++ [_], st.rs ++ [_]⟩ ?_ ?_ ?_
      (fun d' hd' => hdets d' (List.mem_cons_of_mem d hd'))
    · simpa using htp
    · intro p hp
      simp only [hpt] at hp
      rcases List.mem_append.mp hp with hp | hp
      · exact hps p hp
      · simpa using List.mem_singleton.mp hp
    · intro r hr
      simp only [hpt] at hr
      rcases List.mem_append.mp hr with hr | hr
      · exact hrs r hr
      · simpa using List.mem_singleton.mp hr

lemma calc_ap_zero_of_no_match (s : AccuracyCalculator) (c : String)
    (hG : gts_raw s c ≠ [])
    (hdets : ∀ d ∈ s.detRows, d.cls = c →
      gts_in_frame s c d.frame ≠ [] ∧
      (best_iou_idx (gts_in_frame s c d.frame) d.box).1 < s.iou_threshold) :
    calc_ap s c = some 0 := by
  by_cases hd : dets_raw s c = []
  · unfold calc_ap calc_precision_recall calc_precision_recall_st
    rw [if_pos (Or.inl hd)]
    simp
  · have hGpos : 0 < (gts_raw s c).length := List.length_pos.mpr hG
    have hmem : ∀ d ∈ sort_dets (dets_raw s c),
        gts_in_frame s c d.frame ≠ [] ∧
        (best_iou_idx (gts_in_frame s c d.frame) d.box).1 < s.iou_threshold := by
      intro d hd'
      have hd2 : d ∈ dets_raw s c := List.mem_mergeSort.mp hd'
      have hd3 := List.mem_filter.mp hd2
      exact hdets d hd3.1 (of_decide_eq_true hd3.2)
    have hfp := pr_fold_all_fp s c hGpos (sort_dets (dets_raw s c))
      ⟨fun _ => ∅, 0, 0, [], []⟩ rfl (by simp) (by simp) hmem
    have hlen := pr_fold_len s c (sort_dets (dets_raw s c))
      ⟨fun _ => ∅, 0, 0, [], []⟩ rfl
    unfold calc_ap calc_precision_recall calc_precision_recall_st
    rw [if_neg (by rw [not_or]; exact ⟨hd, hG⟩)]
    simp only
    rw [if_pos hfp.1]
    rw [Option.map_some']
    simp only
    by_cases hl : (pr_fold s c (sort_dets (dets_raw s c))
        ⟨fun _ => ∅, 0, 0, [], []⟩).1.ps.length = 0
    · rw [if_pos hl]
    · rw [if_neg hl]
      have hzall : ∀ q ∈ ((pr_fold s c (sort_dets (dets_raw s c))
          ⟨fun _ => ∅, 0, 0, [], []⟩).1.ps.zip
            (pr_fold s c (sort_dets (dets_raw s c))
              ⟨fun _ => ∅, 0, 0, [], []⟩).1.rs), q.1 = 0 := by
        rintro ⟨q1, q2⟩ hq
        exact hfp.2.1 q1 (List.of_mem_zip hq).1
      have hzne : ((pr_fold s c (sort_dets (dets_raw s c))
          ⟨fun _ => ∅, 0, 0, [], []⟩).1.ps.zip
            (pr_fold s c (sort_dets (dets_raw s c))
              ⟨fun _ => ∅, 0, 0, [], []⟩).1.rs) ≠ [] := by
        intro hz
        have := congrArg List.length hz
        rw [List.length_zip, ← hlen, min_self] at this
        exact hl this
      obtain ⟨q0, _, henv⟩ := ap_envelope_all_fst _ 0 hzne hzall
      rw [henv, mul_zero]

lemma calc_ap_one (s : AccuracyCalculator) (c : String)
    (hτ : 0 < s.iou_threshold) (ps rs : List ℚ)
    (hpr : calc_precision_recall s c = some (ps, rs))
    (hne : ps ≠ []) (hall : ∀ p ∈ ps, p = 1) (hlast : rs.getLast? = some 1) :
    calc_ap s c = some 1 := by
  obtain ⟨hlen, _, _, _⟩ := calc_precision_recall_props s c hτ ps rs hpr
  unfold calc_ap
  rw [hpr, Option.map_some']
  simp only
  have hlen0 : ps.length ≠ 0 := fun h => hne (List.length_eq_zero.mp h)
  rw [if_neg hlen0]
  have hplast : ps.getLast? = some 1 := by
    rw [List.getLast?_eq_getLast ps hne]
    exact congrArg some (hall _ (List.getLast_mem hne))
  have hzlast := zip_getLast ps rs hlen 1 1 hplast hlast
  have hzne : ps.zip rs ≠ [] := by
    intro hz
    have := congrArg List.length hz
    rw [List.length_zip, ← hlen, min_self] at this
    exact hlen0 this
  have hzall : ∀ q ∈ ps.zip rs, q.1 = 1 := by
    rintro ⟨q1, q2⟩ hq
    exact hall q1 (List.of_mem_zip hq).1
  obtain ⟨q0, hq0, henv⟩ := ap_envelope_all_fst (ps.zip rs) 1 hzne hzall
  rw [hq0] at hzlast
  have : q0 = (1, 1) := Option.some.inj hzlast
  rw [henv, this, mul_one]

lemma map_eq_map_some_length {α : Type} (cs : List α) (g : α → Option ℚ) (l : List ℚ)
    (h : cs.map g = l.map some) : cs.length = l.length := by
  have := congrArg List.length h
  simpa using this

lemma foldlM_calc_ap (s : AccuracyCalculator) (cs : List String) (l : List ℚ) (acc : ℚ)
    (h : cs.map (calc_ap s) = l.map some) :
    cs.foldlM (fun (acc : ℚ) c => (calc_ap s c).map (fun a => acc + a)) acc =
      some (acc + l.sum) := by
  induction cs generalizing l acc with
  | nil =>
    have hl : l = [] := by
      cases l with
      | nil => rfl
      | cons a l' => simp at h
    subst hl
    simp
  | cons c cs ih =>
    cases l with
    | nil => simp at h
    | cons a l' =>
      simp only [List.map_cons, List.cons.injEq] at h
      obtain ⟨h1, h2⟩ := h
      rw [List.foldlM_cons, h1]
      simp only [Option.map_some']
      show (some (acc + a) >>= fun acc' =>
        cs.foldlM (fun (acc : ℚ) c => (calc_ap s c).map (fun a => acc + a)) acc') =
        some (acc + (a :: l').sum)
      rw [Option.bind_eq_bind, Option.some_bind, ih l' (acc + a) h2]
      rw [List.sum_cons, add_assoc]

/-! ### Removing a detections-only class -/

lemma dets_raw_remove (s : AccuracyCalculator) (c c' : String) (hne : c' ≠ c) :
    dets_raw (removeDetClass s c) c' = dets_raw s c' := by
  unfold dets_raw removeDetClass
  simp only
  rw [List.filter_filter]
  refine List.filter_congr ?_
  intro r _
  by_cases h : r.cls = c'
  · have hrc : ¬ r.cls = c := fun hc => hne (h ▸ hc)
    simp [h, hrc, hne]
  · simp [h]

lemma match_raw_step_remove (s : AccuracyCalculator) (c c'' : String)
    (m : MState) (det : DetRow) :
    match_raw_step (removeDetClass s c) c'' m det = match_raw_step s c'' m det := rfl

lemma pr_fold_remove (s : AccuracyCalculator) (c c'' : String)
    (dets : List DetRow) (st : PrSt) :
    pr_fold (removeDetClass s c) c'' dets st = pr_fold s c'' dets st := by
  induction dets generalizing st with
  | nil => rfl
  | cons det dets ih =>
    rw [pr_fold, pr_fold, match_raw_step_remove]
    cases match_raw_step s c'' st.m det with
    | none => rfl
    | some v =>
      obtain ⟨tp1, fp1, m'⟩ := v
      simp only
      have hg : gts_raw (removeDetClass s c) c'' = gts_raw s c'' := rfl
      rw [hg]
      exact ih _

lemma calc_precision_recall_remove (s : AccuracyCalculator) (c c' : String)
    (hne : c' ≠ c) :
    calc_precision_recall (removeDetClass s c) c' = calc_precision_recall s c' := by
  unfold calc_precision_recall calc_precision_recall_st
  rw [dets_raw_remove s c c' hne]
  have hg : gts_raw (removeDetClass s c) c' = gts_raw s c' := rfl
  rw [hg, pr_fold_remove]

lemma calc_ap_remove (s : AccuracyCalculator) (c c' : String) (hne : c' ≠ c) :
    calc_ap (removeDetClass s c) c' = calc_ap s c' := by
  unfold calc_ap
  rw [calc_precision_recall_remove s c c' hne]

lemma not_mem_gtClasses (s : AccuracyCalculator) (c : String)
    (hgt : ∀ r ∈ s.gtRows, r.cls ≠ c) : c ∉ gtClasses s := by
  intro hmem
  rw [gtClasses, mem_insKeys] at hmem
  rcases List.mem_map.mp hmem with ⟨r, hr, hrc⟩
  exact hgt r hr hrc

lemma mem_gtClasses_ne (s : AccuracyCalculator) (c c' : String)
    (hgt : ∀ r ∈ s.gtRows, r.cls ≠ c) (h : c' ∈ gtClasses s) : c' ≠ c := by
  intro he
  exact not_mem_gtClasses s c hgt (he ▸ h)

lemma foldlM_congr_option (l : List String) (f g : ℚ → String → Option ℚ)
    (h : ∀ x ∈ l, ∀ acc, f acc x = g acc x) (acc : ℚ) :
    l.foldlM f acc = l.foldlM g acc := by
  induction l generalizing acc with
  | nil => rfl
  | cons x l ih =>
    rw [List.foldlM_cons, List.foldlM_cons, h x (List.mem_cons_self x l) acc]
    cases g acc x with
    | none => rfl
    | some a =>
      simp only [Option.bind_eq_bind, Option.some_bind]
      exact ih (fun y hy => h y (List.mem_cons_of_mem x hy)) a

lemma calc_map_remove (s : AccuracyCalculator) (c : String)
    (hgt : ∀ r ∈ s.gtRows, r.cls ≠ c) :
    calc_map (removeDetClass s c) = calc_map s := by
  have hgc : gtClasses (removeDetClass s c) = gtClasses s := rfl
  have hfold : List.foldlM
      (fun (acc : ℚ) c' => (calc_ap (removeDetClass s c) c').map (fun a => acc + a))
      (0 : ℚ) (gtClasses s) =
      List.foldlM (fun (acc : ℚ) c' => (calc_ap s c').map (fun a => acc + a))
      (0 : ℚ) (gtClasses s) :=
    foldlM_congr_option (gtClasses s) _ _
      (fun c' hc' acc => by
        rw [calc_ap_remove s c c' (mem_gtClasses_ne s c c' hgt hc')]) 0
  simp only [calc_map, hgc, hfold]

lemma class_tp_remove (s : AccuracyCalculator) (c c' : String) (hne : c' ≠ c) :
    class_tp (removeDetClass s c) c' = class_tp s c' := by
  unfold class_tp det_frames dets_in_frame
  rw [dets_raw_remove s c c' hne]
  rfl

lemma class_fp_remove (s : AccuracyCalculator) (c c' : String) (hne : c' ≠ c) :
    class_fp (removeDetClass s c) c' = class_fp s c' := by
  unfold class_fp det_frames dets_in_frame
  rw [dets_raw_remove s c c' hne]
  rfl

lemma class_fn_remove (s : AccuracyCalculator) (c c' : String) (hne : c' ≠ c) :
    class_fn (removeDetClass s c) c' = class_fn s c' := by
  unfold class_fn dets_in_frame
  rw [dets_raw_remove s c c' hne]
  rfl

lemma spurious_fp_remove (s : AccuracyCalculator) (c c' : String) (hne : c' ≠ c) :
    spurious_fp (removeDetClass s c) c' = spurious_fp s c' := by
  unfold spurious_fp det_frames dets_in_frame
  rw [dets_raw_remove s c c' hne]

lemma calc_total_tp_remove (s : AccuracyCalculator) (c : String)
    (hgt : ∀ r ∈ s.gtRows, r.cls ≠ c) :
    calc_total_tp (removeDetClass s c) = calc_total_tp s := by
  unfold calc_total_tp
  have hgc : gtClasses (removeDetClass s c) = gtClasses s := rfl
  rw [hgc]
  refine congrArg List.sum (List.map_congr_left ?_)
  intro c' hc'
  have hne := mem_gtClasses_ne s c c' hgt hc'
  rw [dets_raw_remove s c c' hne, class_tp_remove s c c' hne]

lemma calc_total_fn_remove (s : AccuracyCalculator) (c : String)
    (hgt : ∀ r ∈ s.gtRows, r.cls ≠ c) :
    calc_total_fn (removeDetClass s c) = calc_total_fn s := by
  unfold calc_total_fn
  have hgc : gtClasses (removeDetClass s c) = gtClasses s := rfl
  rw [hgc]
  refine congrArg List.sum (List.map_congr_left ?_)
  intro c' hc'
  have hne := mem_gtClasses_ne s c c' hgt hc'
  have hg : gts_raw (removeDetClass s c) c' = gts_raw s c' := rfl
  rw [dets_raw_remove s c c' hne, class_fn_remove s c c' hne, hg]

lemma detClasses_remove (s : AccuracyCalculator) (c : String) :
    detClasses (removeDetClass s c) = (detClasses s).filter (fun k => !decide (k = c)) := by
  unfold detClasses removeDetClass
  simp only
  rw [← insKeys_filter]
  congr 1
  rw [List.filter_map]
  rfl

lemma mem_detClasses (s : AccuracyCalculator) (c : String)
    (hdet : ∃ r ∈ s.detRows, r.cls = c) : c ∈ detClasses s := by
  rw [detClasses, mem_insKeys]
  rcases hdet with ⟨r, hr, hrc⟩
  exact List.mem_map.mpr ⟨r, hr, hrc⟩

lemma calc_total_fp_remove (s : AccuracyCalculator) (c : String)
    (hdet : ∃ r ∈ s.detRows, r.cls = c)
    (hgt : ∀ r ∈ s.gtRows, r.cls ≠ c) :
    calc_total_fp s = calc_total_fp (removeDetClass s c) + (dets_raw s c).length := by
  unfold calc_total_fp
  have hgc : gtClasses (removeDetClass s c) = gtClasses s := rfl
  rw [hgc]
  have hA : ((gtClasses s).map
      (fun c' => if dets_raw (removeDetClass s c) c' = [] then 0
        else class_fp (removeDetClass s c) c')).sum =
      ((gtClasses s).map
        (fun c' => if dets_raw s c' = [] then 0 else class_fp s c')).sum := by
    refine congrArg List.sum (List.map_congr_left ?_)
    intro c' hc'
    have hne := mem_gtClasses_ne s c c' hgt hc'
    rw [dets_raw_remove s c c' hne, class_fp_remove s c c' hne]
  rw [hA]
  have hB : ((detClasses (removeDetClass s c)).map
      (fun c' => if c' ∈ gtClasses s then 0 else spurious_fp (removeDetClass s c) c')).sum =
      (((detClasses s).filter (fun k => !decide (k = c))).map
        (fun c' => if c' ∈ gtClasses s then 0 else spurious_fp s c')).sum := by
    rw [detClasses_remove]
    refine congrArg List.sum (List.map_congr_left ?_)
    intro c' hc'
    have hne : c' ≠ c := by
      have := (List.mem_filter.mp hc').2
      simpa using this
    rw [spurious_fp_remove s c c' hne]
  rw [hB]
  have hsplit := sum_filter_ne (detClasses s) c
    (fun c' => if c' ∈ gtClasses s then 0 else spurious_fp s c')
    (insKeys_nodup _) (mem_detClasses s c hdet)
  rw [hsplit]
  have hc_if : (fun c' => if c' ∈ gtClasses s then (0 : ℕ) else spurious_fp s c') c =
      spurious_fp s c := by
    simp only
    rw [if_neg (not_mem_gtClasses s c hgt)]
  rw [hc_if, spurious_fp_eq]
  omega

/-! ### IoU bounds -/

lemma inter_area_nonneg (bbox1 bbox2 : Box) : 0 ≤ inter_area bbox1 bbox2 :=
  mul_nonneg (le_max_left 0 _) (le_max_left 0 _)

lemma inter_area_le (bbox1 bbox2 : Box) :
    inter_area bbox1 bbox2 = 0 ∨
    (inter_area bbox1 bbox2 ≤ box_area bbox1 ∧ inter_area bbox1 bbox2 ≤ box_area bbox2) := by
  unfold inter_area box_area
  have hvx1 : min bbox1.x2 bbox2.x2 - max bbox1.x1 bbox2.x1 + 1 ≤ bbox1.x2 - bbox1.x1 + 1 := by
    have h1 := min_le_left bbox1.x2 bbox2.x2
    have h2 := le_max_left bbox1.x1 bbox2.x1
    linarith
  have hvx2 : min bbox1.x2 bbox2.x2 - max bbox1.x1 bbox2.x1 + 1 ≤ bbox2.x2 - bbox2.x1 + 1 := by
    have h1 := min_le_right bbox1.x2 bbox2.x2
    have h2 := le_max_right bbox1.x1 bbox2.x1
    linarith
  have hvy1 : min bbox1.y2 bbox2.y2 - max bbox1.y1 bbox2.y1 + 1 ≤ bbox1.y2 - bbox1.y1 + 1 := by
    have h1 := min_le_left bbox1.y2 bbox2.y2
    have h2 := le_max_left bbox1.y1 bbox2.y1
    linarith
  have hvy2 : min bbox1.y2 bbox2.y2 - max bbox1.y1 bbox2.y1 + 1 ≤ bbox2.y2 - bbox2.y1 + 1 := by
    have h1 := min_le_right bbox1.y2 bbox2.y2
    have h2 := le_max_right bbox1.y1 bbox2.y1
    linarith
  rcases le_or_lt (bbox1.x2 - bbox1.x1 + 1) 0 with hw1 | hw1
  · left
    have : max 0 (min bbox1.x2 bbox2.x2 - max bbox1.x1 bbox2.x1 + 1) = 0 :=
      max_eq_left (by linarith)
    rw [this, zero_mul]
  rcases le_or_lt (bbox1.y2 - bbox1.y1 + 1) 0 with hh1 | hh1
  · left
    have : max 0 (min bbox1.y2 bbox2.y2 - max bbox1.y1 bbox2.y1 + 1) = 0 :=
      max_eq_left (by linarith)
    rw [this, mul_zero]
  rcases le_or_lt (bbox2.x2 - bbox2.x1 + 1) 0 with hw2 | hw2
  · left
    have : max 0 (min bbox1.x2 bbox2.x2 - max bbox1.x1 bbox2.x1 + 1) = 0 :=
      max_eq_left (by linarith)
    rw [this, zero_mul]
  rcases le_or_lt (bbox2.y2 - bbox2.y1 + 1) 0 with hh2 | hh2
  · left
    have : max 0 (min bbox1.y2 bbox2.y2 - max bbox1.y1 bbox2.y1 + 1) = 0 :=
      max_eq_left (by linarith)
    rw [this, mul_zero]
  · right
    have hW1 : max 0 (min bbox1.x2 bbox2.x2 - max bbox1.x1 bbox2.x1 + 1) ≤
        bbox1.x2 - bbox1.x1 + 1 := max_le (le_of_lt hw1) hvx1
    have hW2 : max 0 (min bbox1.x2 bbox2.x2 - max bbox1.x1 bbox2.x1 + 1) ≤
        bbox2.x2 - bbox2.x1 + 1 := max_le (le_of_lt hw2) hvx2
    have hH1 : max 0 (min bbox1.y2 bbox2.y2 - max bbox1.y1 bbox2.y1 + 1) ≤
        bbox1.y2 - bbox1.y1 + 1 := max_le (le_of_lt hh1) hvy1
    have hH2 : max 0 (min bbox1.y2 bbox2.y2 - max bbox1.y1 bbox2.y1 + 1) ≤
        bbox2.y2 - bbox2.y1 + 1 := max_le (le_of_lt hh2) hvy2
    have hW0 : (0 : ℚ) ≤ max 0 (min bbox1.x2 bbox2.x2 - max bbox1.x1 bbox2.x1 + 1) :=
      le_max_left 0 _
    have hH0 : (0 : ℚ) ≤ max 0 (min bbox1.y2 bbox2.y2 - max bbox1.y1 bbox2.y1 + 1) :=
      le_max_left 0 _
    constructor
    · exact mul_le_mul hW1 hH1 hH0 (by linarith)
    · exact mul_le_mul hW2 hH2 hH0 (by linarith)

/-! ### The query model -/

lemma calc_precision_recall_st_fst (s : AccuracyCalculator) (c : String) (m : MState) :
    (calc_precision_recall_st s c m).1 = calc_precision_recall s c := by
  unfold calc_precision_recall calc_precision_recall_st
  by_cases hg : dets_raw s c = [] ∨ gts_raw s c = [] <;> simp [hg]

/-! ### The claims -/

/-- C1: the spec asserts that `calc_precision_recall` completes and yields
one precision/recall pair per detection even when a detection's frame has no
ground-truth box of the class.  The code instead evaluates
`self.gts_by_frames[class_name][frame_id]` and raises `KeyError` on such a
detection: on `storeMiss` (ground truth of class `"c"` only in frame 1, its
single detection in frame 2) the call faults (`none`), and so does `calc_ap`. -/
theorem spec2proof_c1 :
    calc_precision_recall storeMiss "c" = none ∧ calc_ap storeMiss "c" = none := by
  constructor <;>
    norm_num +decide [calc_ap, calc_precision_recall, calc_precision_recall_st,
      pr_fold, match_raw_step, pr_point, best_iou_idx, calc_iou, inter_area,
      union_area, box_area, gts_raw, dets_raw, gts_in_frame, dets_in_frame,
      sort_dets, insKeys, storeMiss, boxA, max_def, min_def,
      List.mergeSort_nil, List.mergeSort_singleton]

/-- C2: one Matcher pass (`__match_grouped_dets_to_gts`) over any frame
returns counts with `tp + fn = number of ground-truth boxes` and
`tp + fp = number of detections`. -/
theorem spec2proof_c2 (τ : ℚ) (dets gts : List Box) :
    ((match_grouped τ dets gts).1 : ℤ) + (match_grouped τ dets gts).2.2 =
      (gts.length : ℤ) ∧
    (match_grouped τ dets gts).1 + (match_grouped τ dets gts).2.1 = dets.length :=
  match_grouped_counts τ dets gts

/-- C3: in a Matcher pass, a detection whose best-IoU ground-truth box is at
or above the threshold but already matched is counted as a false positive;
in the concrete duplicate scenario (two detections in confidence-descending
order both overlapping the single ground-truth box above threshold) the first
scores TP and the second FP. -/
theorem spec2proof_c3 :
    (∀ (τ : ℚ) (matched : Finset ℤ) (tp fp : ℕ) (det : Box) (gts : List Box),
      τ ≤ (best_iou_idx gts det).1 → (best_iou_idx gts det).2 ∈ matched →
      match_grouped_step τ gts (matched, tp, fp) det = (matched, tp, fp + 1)) ∧
    match_grouped (1/2) [boxA, boxNear] [boxA] = (1, 1, 0) := by
  constructor
  · intro τ matched tp fp det gts h1 h2
    unfold match_grouped_step
    rw [if_neg (fun hc => hc.2 h2)]
  · norm_num +decide [match_grouped, match_grouped_step, best_iou_idx, calc_iou,
      inter_area, union_area, box_area, boxA, boxNear, max_def, min_def]

/-- Witness for C3: the already-matched case at a concrete input, plus the
concrete duplicate scenario. -/
theorem spec2proof_c3_witness :
    match_grouped_step (1/2) [boxA] ({0}, 1, 0) boxA = ({0}, 1, 1) ∧
    match_grouped (1/2) [boxA, boxNear] [boxA] = (1, 1, 0) := by
  constructor
  · have h1 : (1 : ℚ)/2 ≤ (best_iou_idx [boxA] boxA).1 := by
      norm_num [best_iou_idx, calc_iou, inter_area, union_area, box_area, boxA,
        max_def, min_def]
    have h2 : (best_iou_idx [boxA] boxA).2 ∈ ({0} : Finset ℤ) := by
      norm_num [best_iou_idx, calc_iou, inter_area, union_area, box_area, boxA,
        max_def, min_def]
    have h := spec2proof_c3.1 (1/2) {0} 1 0 boxA [boxA] h1 h2
    simpa using h
  · exact spec2proof_c3.2

/-- C4: `__calc_iou` always returns a value in `[0, 1]`, and returns `0` when
the union area is `0` (the division is guarded and never faults). -/
theorem spec2proof_c4 (bbox1 bbox2 : Box) :
    0 ≤ calc_iou bbox1 bbox2 ∧ calc_iou bbox1 bbox2 ≤ 1 ∧
    (union_area bbox1 bbox2 = 0 → calc_iou bbox1 bbox2 = 0) := by
  have hinter := inter_area_nonneg bbox1 bbox2
  by_cases hu : 0 < union_area bbox1 bbox2
  · refine ⟨?_, ?_, ?_⟩
    · unfold calc_iou
      rw [if_pos hu]
      exact div_nonneg hinter (le_of_lt hu)
    · unfold calc_iou
      rw [if_pos hu]
      rw [div_le_one hu]
      rcases inter_area_le bbox1 bbox2 with h0 | ⟨ha1, ha2⟩
      · rw [h0]
        exact le_of_lt hu
      · unfold union_area
        linarith
    · intro h
      rw [h] at hu
      exact absurd hu (lt_irrefl 0)
  · unfold calc_iou
    rw [if_neg hu]
    norm_num

/-- Witness for C4 at a degenerate box with union area `0`. -/
theorem spec2proof_c4_witness :
    0 ≤ calc_iou boxDegenerate boxDegenerate ∧
    calc_iou boxDegenerate boxDegenerate ≤ 1 ∧
    calc_iou boxDegenerate boxDegenerate = 0 := by
  have h := spec2proof_c4 boxDegenerate boxDegenerate
  have hu : union_area boxDegenerate boxDegenerate = 0 := by
    norm_num [union_area, box_area, inter_area, boxDegenerate, max_def, min_def]
  exact ⟨h.1, h.2.1, h.2.2 hu⟩

/-- Counterexample to C5 as frozen: on `storePartial` every detection of
class `"c"` is a true positive at every confidence rank (the precision
sequence is `[1]`), yet `calc_ap` is `1/2`, not `1`, because only one of the
two ground-truth boxes is ever detected. -/
theorem spec2proof_c5_counterexample :
    calc_precision_recall storePartial "c" = some ([1], [1/2]) ∧
    calc_ap storePartial "c" = some (1/2) ∧
    calc_ap storePartial "c" ≠ some 1 := by
  have h1 : calc_precision_recall storePartial "c" = some ([1], [1/2]) := by
    norm_num +decide [calc_precision_recall, calc_precision_recall_st,
      pr_fold, match_raw_step, pr_point, best_iou_idx, calc_iou, inter_area,
      union_area, box_area, gts_raw, dets_raw, gts_in_frame, dets_in_frame,
      sort_dets, insKeys, storePartial, boxA, boxB, max_def, min_def,
      List.mergeSort_nil, List.mergeSort_singleton]
  have h2 : calc_ap storePartial "c" = some (1/2) := by
    rw [calc_ap, h1, Option.map_some']
    norm_num [ap_envelope, ap_step]
  refine ⟨h1, h2, ?_⟩
  rw [h2]
  norm_num

/-- C5 (amended): for a positive IoU threshold, whenever `calc_ap` returns a
value it lies in `[0, 1]`; it returns `1` when every detection of the class
is a true positive at every confidence rank AND the recall reaches `1`
(every ground-truth box matched); and it returns `0` when ground truth
exists for the class, every detection of the class lies in a frame holding
ground truth of the class (so the call completes), and no detection reaches
the IoU threshold. -/
theorem spec2proof_c5 (s : AccuracyCalculator) (c : String)
    (hτ : 0 < s.iou_threshold) :
    (∀ q, calc_ap s c = some q → 0 ≤ q ∧ q ≤ 1) ∧
    (∀ ps rs, calc_precision_recall s c = some (ps, rs) → ps ≠ [] →
      (∀ p ∈ ps, p = 1) → rs.getLast? = some 1 → calc_ap s c = some 1) ∧
    ((∃ r ∈ s.gtRows, r.cls = c) →
      (∀ d ∈ s.detRows, d.cls = c → gts_in_frame s c d.frame ≠ [] ∧
        (best_iou_idx (gts_in_frame s c d.frame) d.box).1 < s.iou_threshold) →
      calc_ap s c = some 0) := by
  refine ⟨?_, ?_, ?_⟩
  · intro q hq
    unfold calc_ap at hq
    cases hpr : calc_precision_recall s c with
    | none => rw [hpr] at hq; cases hq
    | some pr =>
      obtain ⟨ps, rs⟩ := pr
      rw [hpr, Option.map_some'] at hq
      have hq' : (if ps.length = 0 then (0 : ℚ) else ap_envelope (ps.zip rs)) = q :=
        Option.some.inj hq
      by_cases hl : ps.length = 0
      · rw [if_pos hl] at hq'
        rw [← hq']
        norm_num
      · rw [if_neg hl] at hq'
        obtain ⟨hlen, hpsb, hrsb, hch⟩ := calc_precision_recall_props s c hτ ps rs hpr
        have hallz : ∀ qq ∈ ps.zip rs, 0 ≤ qq.1 ∧ qq.1 ≤ 1 ∧ 0 ≤ qq.2 ∧ qq.2 ≤ 1 := by
          rintro ⟨a, b⟩ hab
          obtain ⟨ha, hb⟩ := List.of_mem_zip hab
          exact ⟨(hpsb a ha).1, (hpsb a ha).2, (hrsb b hb).1, (hrsb b hb).2⟩
        have hpw_rs : rs.Pairwise (· ≤ ·) := List.chain'_iff_pairwise.mp hch
        have hmap : (ps.zip rs).map Prod.snd = rs :=
          List.map_snd_zip ps rs (le_of_eq hlen.symm)
        rw [← hmap] at hpw_rs
        have hpwz := List.pairwise_map.mp hpw_rs
        have hbound := ap_envelope_bound (ps.zip rs) hallz hpwz
        rw [← hq']
        exact hbound
  · intro ps rs hpr hne hall hlast
    exact calc_ap_one s c hτ ps rs hpr hne hall hlast
  · intro hgt hdets
    have hG : gts_raw s c ≠ [] := by
      rcases hgt with ⟨r, hr, hrc⟩
      intro hnil
      have hmem : r ∈ gts_raw s c := List.mem_filter.mpr ⟨hr, by simp [hrc]⟩
      rw [hnil] at hmem
      cases hmem
    exact calc_ap_zero_of_no_match s c hG hdets

/-- Witness for C5: the range, the perfect-detector value and the
below-threshold value, each at a concrete store. -/
theorem spec2proof_c5_witness :
    (0 ≤ (1 : ℚ) ∧ (1 : ℚ) ≤ 1) ∧
    calc_ap storeMatch "c" = some 1 ∧
    calc_ap storeDisjoint "c" = some 0 := by
  have hτ1 : (0 : ℚ) < storeMatch.iou_threshold := by norm_num [storeMatch]
  have hpr : calc_precision_recall storeMatch "c" = some ([1], [1]) := by
    norm_num +decide [calc_precision_recall, calc_precision_recall_st,
      pr_fold, match_raw_step, pr_point, best_iou_idx, calc_iou, inter_area,
      union_area, box_area, gts_raw, dets_raw, gts_in_frame, dets_in_frame,
      sort_dets, insKeys, storeMatch, boxA, max_def, min_def,
      List.mergeSort_nil, List.mergeSort_singleton]
  have h1 : calc_ap storeMatch "c" = some 1 :=
    (spec2proof_c5 storeMatch "c" hτ1).2.1 [1] [1] hpr (by simp) (by simp) (by simp)
  have hrange := (spec2proof_c5 storeMatch "c" hτ1).1 1 h1
  have hτ2 : (0 : ℚ) < storeDisjoint.iou_threshold := by norm_num [storeDisjoint]
  have h0 : calc_ap storeDisjoint "c" = some 0 := by
    refine (spec2proof_c5 storeDisjoint "c" hτ2).2.2
      ⟨⟨1, "c", boxA⟩, List.mem_singleton_self _, rfl⟩ ?_
    intro d hd _
    have hd' : d = ⟨1, "c", boxOff, 9/10⟩ := List.mem_singleton.mp hd
    subst hd'
    constructor
    · norm_num +decide [gts_in_frame, gts_raw, storeDisjoint, boxA]
    · norm_num +decide [gts_in_frame, gts_raw, storeDisjoint, best_iou_idx,
        calc_iou, inter_area, union_area, box_area, boxA, boxOff,
        max_def, min_def]
  exact ⟨hrange, h1, h0⟩

/-- C6: `calc_map` is `0` when there are no ground-truth classes; whenever
every per-class `calc_ap` returns a value, `calc_map` returns exactly their
arithmetic mean over the ground-truth classes; and the ground-truth class
list consists of exactly the classes appearing in ground-truth rows (so
classes present only in detections are excluded). -/
theorem spec2proof_c6 (s : AccuracyCalculator) :
    (gtClasses s = [] → calc_map s = some 0) ∧
    (∀ l : List ℚ, (gtClasses s).map (calc_ap s) = l.map some →
      calc_map s = some (specArithMean l)) ∧
    (∀ c, c ∈ gtClasses s ↔ ∃ r ∈ s.gtRows, r.cls = c) := by
  refine ⟨?_, ?_, ?_⟩
  · intro h
    simp [calc_map, h, List.foldlM_nil]
  · intro l hmap
    have hlen := map_eq_map_some_length (gtClasses s) (calc_ap s) l hmap
    have hfold := foldlM_calc_ap s (gtClasses s) l 0 hmap
    simp only [calc_map, hfold, Option.bind_eq_bind, Option.some_bind]
    by_cases he : gtClasses s = []
    · have hl0 : l = [] := by
        rw [he] at hlen
        exact List.length_eq_zero.mp hlen.symm
      simp [he, hl0, specArithMean]
    · have hne : ¬ (gtClasses s).isEmpty = true := by
        simpa [List.isEmpty_iff] using he
      simp only [hne, if_false, Option.some.injEq, specArithMean, hlen, zero_add]
      simp
  · intro c
    rw [gtClasses, mem_insKeys]
    exact List.mem_map

/-- Witness for C6: the empty store averages to `0`; on the two-class store
`calc_map` equals the arithmetic mean of the per-class AP values `[1, 0]`. -/
theorem spec2proof_c6_witness :
    calc_map storeEmpty = some 0 ∧
    calc_map storeTwoClasses = some (specArithMean [1, 0]) := by
  constructor
  · exact (spec2proof_c6 storeEmpty).1 rfl
  · refine (spec2proof_c6 storeTwoClasses).2.1 [1, 0] ?_
    norm_num +decide [calc_ap, calc_precision_recall, calc_precision_recall_st,
      pr_fold, match_raw_step, pr_point, best_iou_idx, calc_iou, inter_area,
      union_area, box_area, gts_raw, dets_raw, gts_in_frame, dets_in_frame,
      sort_dets, insKeys, gtClasses, storeTwoClasses, boxA, boxB, boxOff,
      max_def, min_def, List.mergeSort_nil, List.mergeSort_singleton,
      ap_envelope, ap_step, String.reduceEq]

/-- C7: with a positive IoU threshold, `calc_tpr` is `tp/(tp+fn)` with a
zero-denominator fallback of `0`, `calc_fdr` is `fp/(tp+fp)` with the same
fallback, and both values lie in `[0, 1]`. -/
theorem spec2proof_c7 (s : AccuracyCalculator) (hτ : 0 < s.iou_threshold) :
    ((calc_total_tp s : ℤ) + calc_total_fn s = 0 → calc_tpr s = 0) ∧
    ((calc_total_tp s : ℤ) + calc_total_fn s ≠ 0 →
      calc_tpr s = (calc_total_tp s : ℚ) /
        ((calc_total_tp s : ℚ) + (calc_total_fn s : ℚ))) ∧
    0 ≤ calc_tpr s ∧ calc_tpr s ≤ 1 ∧
    (calc_total_tp s + calc_total_fp s = 0 → calc_fdr s = 0) ∧
    (calc_total_tp s + calc_total_fp s ≠ 0 →
      calc_fdr s = (calc_total_fp s : ℚ) /
        ((calc_total_tp s : ℚ) + (calc_total_fp s : ℚ))) ∧
    0 ≤ calc_fdr s ∧ calc_fdr s ≤ 1 := by
  have hfn : 0 ≤ calc_total_fn s := by
    unfold calc_total_fn
    refine List.sum_nonneg ?_
    intro x hx
    rcases List.mem_map.mp hx with ⟨c, _, rfl⟩
    by_cases hd : dets_raw s c = []
    · simp [hd]
    · rw [if_neg hd]
      unfold class_fn
      refine List.sum_nonneg ?_
      intro y hy
      rcases List.mem_map.mp hy with ⟨f, _, rfl⟩
      exact match_grouped_fn_nonneg _ hτ _ _
  have htpr_bounds : 0 ≤ calc_tpr s ∧ calc_tpr s ≤ 1 := by
    unfold calc_tpr
    by_cases h : (calc_total_tp s : ℤ) + calc_total_fn s ≠ 0
    · rw [if_pos h]
      have hc : (0 : ℤ) < (calc_total_tp s : ℤ) + calc_total_fn s := by
        rcases lt_or_eq_of_le (by positivity : (0 : ℤ) ≤ (calc_total_tp s : ℤ)) with h1 | h1
        · omega
        · omega
      have hcq : (0 : ℚ) < (calc_total_tp s : ℚ) + (calc_total_fn s : ℚ) := by
        have : ((0 : ℤ) : ℚ) < (((calc_total_tp s : ℤ) + calc_total_fn s : ℤ) : ℚ) := by
          exact_mod_cast hc
        push_cast at this
        linarith
      constructor
      · exact div_nonneg (by positivity) (le_of_lt hcq)
      · rw [div_le_one hcq]
        have hfnq : (0 : ℚ) ≤ (calc_total_fn s : ℚ) := by exact_mod_cast hfn
        linarith
    · rw [if_neg h]
      norm_num
  have hfdr_bounds : 0 ≤ calc_fdr s ∧ calc_fdr s ≤ 1 := by
    unfold calc_fdr
    by_cases h : calc_total_tp s + calc_total_fp s ≠ 0
    · rw [if_pos h]
      have hcq : (0 : ℚ) < (calc_total_tp s : ℚ) + (calc_total_fp s : ℚ) := by
        have h1 : 0 < calc_total_tp s + calc_total_fp s := Nat.pos_of_ne_zero h
        have h2 : (0 : ℚ) < ((calc_total_tp s + calc_total_fp s : ℕ) : ℚ) := by
          exact_mod_cast h1
        push_cast at h2
        linarith
      constructor
      · exact div_nonneg (by positivity) (le_of_lt hcq)
      · rw [div_le_one hcq]
        have : (0 : ℚ) ≤ (calc_total_tp s : ℚ) := by positivity
        linarith
    · rw [if_neg h]
      norm_num
  refine ⟨?_, ?_, htpr_bounds.1, htpr_bounds.2, ?_, ?_, hfdr_bounds.1, hfdr_bounds.2⟩
  · intro h
    unfold calc_tpr
    rw [if_neg (not_not_intro h)]
  · intro h
    unfold calc_tpr
    rw [if_pos h]
  · intro h
    unfold calc_fdr
    rw [if_neg (not_not_intro h)]
  · intro h
    unfold calc_fdr
    rw [if_pos h]

/-- Witness for C7 at the concrete matched store with threshold `1/2`. -/
theorem spec2proof_c7_witness :
    0 ≤ calc_tpr storeMatch ∧ calc_tpr storeMatch ≤ 1 ∧
    0 ≤ calc_fdr storeMatch ∧ calc_fdr storeMatch ≤ 1 := by
  have h := spec2proof_c7 storeMatch (by norm_num [storeMatch])
  exact ⟨h.2.2.1, h.2.2.2.1, h.2.2.2.2.2.2.1, h.2.2.2.2.2.2.2⟩

/-- C8: removing a detections-only class `c` (present in detections, absent
from ground truth) lowers `calc_total_fp` by exactly the number of `c`'s
detections and changes nothing else: `calc_total_tp`, `calc_total_fn`, the
ground-truth class list and `calc_map` are unchanged. -/
theorem spec2proof_c8 (s : AccuracyCalculator) (c : String)
    (hdet : ∃ r ∈ s.detRows, r.cls = c) (hgt : ∀ r ∈ s.gtRows, r.cls ≠ c) :
    calc_total_fp s = calc_total_fp (removeDetClass s c) + (dets_raw s c).length ∧
    calc_total_tp s = calc_total_tp (removeDetClass s c) ∧
    calc_total_fn s = calc_total_fn (removeDetClass s c) ∧
    gtClasses (removeDetClass s c) = gtClasses s ∧
    calc_map (removeDetClass s c) = calc_map s :=
  ⟨calc_total_fp_remove s c hdet hgt, (calc_total_tp_remove s c hgt).symm,
   (calc_total_fn_remove s c hgt).symm, rfl, calc_map_remove s c hgt⟩

/-- Witness for C8 at the concrete store with spurious class `"x"`. -/
theorem spec2proof_c8_witness :
    calc_total_fp storeSpurious =
      calc_total_fp (removeDetClass storeSpurious "x") +
        (dets_raw storeSpurious "x").length ∧
    calc_total_tp storeSpurious = calc_total_tp (removeDetClass storeSpurious "x") ∧
    calc_total_fn storeSpurious = calc_total_fn (removeDetClass storeSpurious "x") ∧
    calc_map (removeDetClass storeSpurious "x") = calc_map storeSpurious := by
  have h := spec2proof_c8 storeSpurious "x"
    ⟨⟨1, "x", boxOff, 8/10⟩, List.mem_cons_of_mem _ (List.mem_cons_self _ _), rfl⟩
    (by
      intro r hr
      have hr' : r = ⟨1, "c", boxA⟩ := List.mem_singleton.mp hr
      subst hr'
      decide)
  exact ⟨h.1, h.2.1, h.2.2.1, h.2.2.2.2⟩

/-- C9: for a class absent from the detection index or absent from the
ground-truth index, `calc_precision_recall` returns two empty sequences and
`calc_ap` returns `0`, with no fault. -/
theorem spec2proof_c9 (s : AccuracyCalculator) (c : String)
    (h : (∀ r ∈ s.detRows, r.cls ≠ c) ∨ (∀ r ∈ s.gtRows, r.cls ≠ c)) :
    calc_precision_recall s c = some ([], []) ∧ calc_ap s c = some 0 := by
  have hg : dets_raw s c = [] ∨ gts_raw s c = [] := by
    rcases h with h | h
    · exact Or.inl (List.filter_eq_nil_iff.mpr (fun r hr => by simpa using h r hr))
    · exact Or.inr (List.filter_eq_nil_iff.mpr (fun r hr => by simpa using h r hr))
  constructor
  · unfold calc_precision_recall calc_precision_recall_st
    rw [if_pos hg]
  · unfold calc_ap calc_precision_recall calc_precision_recall_st
    rw [if_pos hg]
    simp

/-- Witness for C9 at the empty store and a class name absent everywhere. -/
theorem spec2proof_c9_witness :
    calc_precision_recall storeEmpty "x" = some ([], []) ∧
    calc_ap storeEmpty "x" = some 0 :=
  spec2proof_c9 storeEmpty "x" (Or.inl (fun r hr => absurd hr (List.not_mem_nil r)))

/-- C10: `calc_precision_recall` resets the `matched_dets` state before use,
and the other query operations never write the record store, so the pair of
sequences it returns is the same no matter which query operations ran
before it from any starting `matched_dets` state. -/
theorem spec2proof_c10 (s : AccuracyCalculator) (qs : List Query) (m : MState)
    (c : String) :
    (calc_precision_recall_st s c (run_queries s qs m)).1 =
      calc_precision_recall s c :=
  calc_precision_recall_st_fst s c (run_queries s qs m)
